import Mathlib

/-!
# Thunder storage engine: formal verification of spec claims

A shallow embedding, in Lean 4, of the parts of the Thunder embedded
key-value storage engine (Rust) that the specification claims talk about:

* the write/read transaction machinery (`src/tx.rs`),
* data-file persist and load (`src/db.rs`),
* meta-page selection (`src/db.rs::load_meta`),
* overflow page chains (`src/overflow.rs`),
* WAL record encode/decode with CRC32 (`src/wal_record.rs`),
* the bloom filter (`src/bloom.rs`),
* the checkpoint trigger (`src/checkpoint.rs`),
* the group-commit coordinator (`src/group_commit.rs`).

Bytes are modelled as `Nat` (with explicit `% 256` / `% 2^32` / `% 2^64`
where the Rust does fixed-width arithmetic), byte buffers as `List Nat`,
fallible operations as `Except`/`Option`.  The crate-internal modules
`btree`, `meta`, `wal` and `mmap` are referenced by the sources but are
not part of the source tree; definitions for them are modelled from the
specification text and are marked as such in their doc comments.
-/

namespace Thunder

/-! ## Little-endian byte codec helpers

Rust's `u32::to_le_bytes` / `u64::to_le_bytes` and `from_le_bytes`
over `Nat`, with buffers as `List Nat`. -/

/-- `k`-byte little-endian encoding of `n` (truncating, like `as u32` casts). -/
def leN : Nat → Nat → List Nat
  | 0, _ => []
  | k + 1, n => n % 256 :: leN k (n / 256)

/-- Read a `k`-byte little-endian integer from the front of a buffer
(missing bytes read as zero; callers check lengths first, as the Rust
`read_exact`/slicing does). -/
def readLEN : Nat → List Nat → Nat
  | 0, _ => 0
  | _ + 1, [] => 0
  | k + 1, b :: bs => b + 256 * readLEN k bs

theorem leN_length (k n : Nat) : (leN k n).length = k := by
  induction k generalizing n with
  | zero => rfl
  | succ k ih => simp [leN, ih]

theorem readLEN_leN (k n : Nat) (rest : List Nat) :
    readLEN k (leN k n ++ rest) = n % 256 ^ k := by
  induction k generalizing n with
  | zero => simp [leN, readLEN, Nat.mod_one]
  | succ k ih =>
    calc readLEN (k + 1) (leN (k + 1) n ++ rest)
        = n % 256 + 256 * readLEN k (leN k (n / 256) ++ rest) := rfl
      _ = n % 256 + 256 * (n / 256 % 256 ^ k) := by rw [ih]
      _ = n % 256 ^ (k + 1) := by
          rw [Nat.pow_succ, mul_comm (256 ^ k) 256, Nat.mod_mul]

theorem leN_lt (k n : Nat) : ∀ b ∈ leN k n, b < 256 := by
  induction k generalizing n with
  | zero => simp [leN]
  | succ k ih =>
    intro b hb
    simp only [leN, List.mem_cons] at hb
    rcases hb with h | h
    · omega
    · exact ih _ b h

/-- Reading ignores everything past the first `k` bytes. -/
theorem readLEN_append (k : Nat) (l rest : List Nat) (h : k ≤ l.length) :
    readLEN k (l ++ rest) = readLEN k l := by
  induction k generalizing l with
  | zero => rfl
  | succ k ih =>
    cases l with
    | nil => simp at h
    | cons b bs =>
      have h2 : readLEN k (bs ++ rest) = readLEN k bs := ih bs (by simpa using h)
      calc readLEN (k + 1) ((b :: bs) ++ rest)
          = b + 256 * readLEN k (bs ++ rest) := rfl
        _ = b + 256 * readLEN k bs := by rw [h2]

/-! ## The working-set ordered map (crate module `btree`)

The sources use `crate::btree::BTree`, which is not part of the source
tree; the spec (§1, §2) treats it as an external collaborator: "any
balanced ordered map" mapping key bytes to value bytes, iterated in
ascending key order. -/

/-- Byte-wise lexicographic strict order on keys, the iteration order of
the ordered map. -/
def keyLt : List Nat → List Nat → Bool
  | [], [] => false
  | [], _ :: _ => true
  | _ :: _, [] => false
  | a :: as, b :: bs => if a < b then true else if b < a then false else keyLt as bs

theorem keyLt_irrefl (k : List Nat) : keyLt k k = false := by
  induction k with
  | nil => rfl
  | cons a as ih => simp [keyLt, ih]

theorem keyLt_trichotomy (a b : List Nat) :
    keyLt a b = true ∨ a = b ∨ keyLt b a = true := by
  induction a generalizing b with
  | nil => cases b <;> simp [keyLt]
  | cons x xs ih =>
    cases b with
    | nil => simp [keyLt]
    | cons y ys =>
      rcases Nat.lt_trichotomy x y with h | h | h
      · left; simp [keyLt, h]
      · subst h
        rcases ih ys with h2 | h2 | h2
        · left; simp [keyLt, h2]
        · right; left; rw [h2]
        · right; right; simp [keyLt, h2]
      · right; right; simp [keyLt, h]

theorem keyLt_asymm {a b : List Nat} (h : keyLt a b = true) : keyLt b a = false := by
  induction a generalizing b with
  | nil =>
    cases b with
    | nil => simp [keyLt] at h
    | cons y ys => simp [keyLt]
  | cons x xs ih =>
    cases b with
    | nil => simp [keyLt] at h
    | cons y ys =>
      simp only [keyLt] at h ⊢
      by_cases hxy : x < y
      · simp [hxy, Nat.lt_asymm hxy]
      · by_cases hyx : y < x
        · simp [hxy, hyx] at h
        · simp only [hxy, if_false, hyx] at h
          simp [hxy, hyx, ih h]

/-- Modelled from the spec: the in-memory ordered map used as the
working set (`crate::btree::BTree`).  Represented as an association
list in ascending key order; `iter` is the list itself. -/
abbrev BTree := List (List Nat × List Nat)

/-- Modelled from the spec: `BTree::new()`, the empty map. -/
def BTree.new : BTree := []

/-- Modelled from the spec: `BTree::get`, first entry whose key matches. -/
def BTree.get : BTree → List Nat → Option (List Nat)
  | [], _ => none
  | (k', v') :: rest, k => if k' = k then some v' else BTree.get rest k

/-- Modelled from the spec: `BTree::insert`, ordered insert that
replaces an existing binding of the key. -/
def BTree.insert : BTree → List Nat → List Nat → BTree
  | [], k, v => [(k, v)]
  | (k', v') :: rest, k, v =>
    if keyLt k k' then (k, v) :: (k', v') :: rest
    else if k = k' then (k, v) :: rest
    else (k', v') :: BTree.insert rest k v

/-- Modelled from the spec: `BTree::remove`, drops the binding of the key. -/
def BTree.remove (t : BTree) (k : List Nat) : BTree :=
  t.filter (fun e => e.1 ≠ k)

/-- Modelled from the spec: `BTree::len`, number of entries. -/
def BTree.len (t : BTree) : Nat := List.length t

/-- Modelled from the spec: `BTree::is_empty`. -/
def BTree.isEmpty (t : BTree) : Bool := t.len == 0

theorem BTree.get_insert_self (t : BTree) (k v : List Nat) :
    (t.insert k v).get k = some v := by
  induction t with
  | nil => simp [BTree.insert, BTree.get]
  | cons e rest ih =>
    obtain ⟨k', v'⟩ := e
    by_cases h1 : keyLt k k' = true
    · simp [BTree.insert, h1, BTree.get]
    · by_cases h2 : k = k'
      · subst h2
        simp [BTree.insert, keyLt_irrefl, BTree.get]
      · have hne : k' ≠ k := fun h => h2 h.symm
        simp [BTree.insert, h1, h2, BTree.get, hne, ih]

theorem BTree.get_insert_ne (t : BTree) (k v k2 : List Nat) (hne : k2 ≠ k) :
    (t.insert k v).get k2 = t.get k2 := by
  have hne2 : k ≠ k2 := fun h => hne h.symm
  induction t with
  | nil => simp [BTree.insert, BTree.get, hne2]
  | cons e rest ih =>
    obtain ⟨k', v'⟩ := e
    by_cases h1 : keyLt k k' = true
    · simp [BTree.insert, h1, BTree.get, hne2]
    · by_cases h2 : k = k'
      · subst h2
        simp [BTree.insert, keyLt_irrefl, BTree.get, hne2]
      · simp [BTree.insert, h1, h2, BTree.get, ih]

theorem BTree.get_remove_self (t : BTree) (k : List Nat) :
    (t.remove k).get k = none := by
  induction t with
  | nil => rfl
  | cons e rest ih =>
    obtain ⟨k', v'⟩ := e
    by_cases h : k' = k
    · simpa [BTree.remove, List.filter_cons, h] using ih
    · simpa [BTree.remove, List.filter_cons, h, BTree.get] using ih

theorem BTree.get_remove_ne (t : BTree) (k k2 : List Nat) (hne : k2 ≠ k) :
    (t.remove k).get k2 = t.get k2 := by
  induction t with
  | nil => rfl
  | cons e rest ih =>
    obtain ⟨k', v'⟩ := e
    by_cases h : k' = k
    · subst h
      have hne2 : k' ≠ k2 := fun h => hne h.symm
      simpa [BTree.remove, List.filter_cons, BTree.get, hne2] using ih
    · by_cases h2 : k' = k2
      · simp [BTree.remove, List.filter_cons, h, BTree.get, h2, hne]
      · simpa [BTree.remove, List.filter_cons, h, BTree.get, h2] using ih

theorem keyLt_case {x y : Nat} {xs ys : List Nat}
    (h : keyLt (x :: xs) (y :: ys) = true) :
    x < y ∨ (x = y ∧ keyLt xs ys = true) := by
  by_cases hxy : x < y
  · left; exact hxy
  · by_cases hyx : y < x
    · simp [keyLt, hxy, hyx] at h
    · right
      refine ⟨by omega, ?_⟩
      simpa [keyLt, hxy, hyx] using h

theorem keyLt_trans {a b c : List Nat} (h1 : keyLt a b = true) (h2 : keyLt b c = true) :
    keyLt a c = true := by
  induction a generalizing b c with
  | nil =>
    cases b with
    | nil => simp [keyLt] at h1
    | cons y ys =>
      cases c with
      | nil => simp [keyLt] at h2
      | cons z zs => simp [keyLt]
  | cons x xs ih =>
    cases b with
    | nil => simp [keyLt] at h1
    | cons y ys =>
      cases c with
      | nil => simp [keyLt] at h2
      | cons z zs =>
        rcases keyLt_case h1 with hxy | ⟨rfl, hxs⟩
        · rcases keyLt_case h2 with hyz | ⟨rfl, hys⟩
          · simp [keyLt, show x < z by omega]
          · simp [keyLt, hxy]
        · rcases keyLt_case h2 with hyz | ⟨rfl, hys⟩
          · simp [keyLt, hyz]
          · simp [keyLt, Nat.lt_irrefl, ih hxs hys]

/-- The ordered map holds its entries in strictly ascending key order
(spec: iteration yields keys in ascending order). -/
def BTree.Sorted (t : BTree) : Prop :=
  List.Pairwise (fun a b => keyLt a.1 b.1 = true) t

theorem BTree.sorted_new : BTree.Sorted BTree.new := List.Pairwise.nil

theorem BTree.mem_insert {t : BTree} {k v : List Nat} {e : List Nat × List Nat}
    (h : e ∈ t.insert k v) : e ∈ t ∨ e = (k, v) := by
  induction t with
  | nil => simpa [BTree.insert] using h
  | cons hd rest ih =>
    obtain ⟨k', v'⟩ := hd
    by_cases h1 : keyLt k k' = true
    · have hu : BTree.insert ((k', v') :: rest) k v = (k, v) :: (k', v') :: rest := by
        simp [BTree.insert, h1]
      rw [hu] at h
      rcases List.mem_cons.mp h with h | h
      · right; exact h
      · left; exact h
    · by_cases h2 : k = k'
      · subst h2
        have hu : BTree.insert ((k, v') :: rest) k v = (k, v) :: rest := by
          simp [BTree.insert, keyLt_irrefl]
        rw [hu] at h
        rcases List.mem_cons.mp h with h | h
        · right; exact h
        · left; exact List.mem_cons_of_mem _ h
      · have hu : BTree.insert ((k', v') :: rest) k v = (k', v') :: BTree.insert rest k v := by
          simp [BTree.insert, h1, h2]
        rw [hu] at h
        rcases List.mem_cons.mp h with h | h
        · left; exact h ▸ List.mem_cons_self _ _
        · rcases ih h with h3 | h3
          · left; exact List.mem_cons_of_mem _ h3
          · right; exact h3

theorem BTree.sorted_insert {t : BTree} (hs : t.Sorted) (k v : List Nat) :
    (t.insert k v).Sorted := by
  induction t with
  | nil => simp [BTree.insert, BTree.Sorted]
  | cons hd rest ih =>
    obtain ⟨k', v'⟩ := hd
    rw [BTree.Sorted, List.pairwise_cons] at hs
    obtain ⟨hall, hrest⟩ := hs
    by_cases h1 : keyLt k k' = true
    · rw [BTree.Sorted, BTree.insert]
      simp only [h1, if_true]
      refine List.Pairwise.cons ?_ ?_
      · intro e he
        rcases List.mem_cons.mp he with h | h
        · simp [h, h1]
        · exact keyLt_trans h1 (hall e h)
      · exact List.Pairwise.cons hall hrest
    · by_cases h2 : k = k'
      · rw [BTree.Sorted, BTree.insert]
        simp only [h1, if_false, if_neg h1, if_pos h2]
        subst h2
        exact List.Pairwise.cons hall hrest
      · rw [BTree.Sorted, BTree.insert]
        simp only [if_neg h1, if_neg h2]
        refine List.Pairwise.cons ?_ (ih hrest)
        intro e he
        rcases BTree.mem_insert he with h | h
        · exact hall e h
        · subst h
          rcases keyLt_trichotomy k k' with h | h | h
          · exact absurd h h1
          · exact absurd h h2
          · simpa using h

theorem BTree.sorted_remove {t : BTree} (hs : t.Sorted) (k : List Nat) :
    (t.remove k).Sorted :=
  List.Pairwise.sublist (List.filter_sublist t) hs

theorem BTree.sorted_nodupKeys {t : BTree} (hs : t.Sorted) :
    (t.map Prod.fst).Nodup := by
  unfold List.Nodup
  rw [List.pairwise_map]
  refine hs.imp ?_
  intro a b hab heq
  rw [heq] at hab
  simp [keyLt_irrefl] at hab

theorem BTree.get_eq_none_of_not_mem {t : BTree} {k : List Nat}
    (h : k ∉ t.map Prod.fst) : t.get k = none := by
  induction t with
  | nil => rfl
  | cons hd rest ih =>
    obtain ⟨k', v'⟩ := hd
    simp only [List.map_cons, List.mem_cons] at h
    push_neg at h
    have hne : k' ≠ k := fun hh => h.1 hh.symm
    simp only [BTree.get, if_neg hne]
    exact ih h.2

theorem BTree.get_foldl_insert (l : List (List Nat × List Nat)) (t : BTree)
    (k : List Nat) (hnd : (l.map Prod.fst).Nodup) :
    (l.foldl (fun acc e => acc.insert e.1 e.2) t).get k =
      match BTree.get l k with
      | some v => some v
      | none => t.get k := by
  induction l generalizing t with
  | nil => rfl
  | cons e l ih =>
    obtain ⟨k1, v1⟩ := e
    simp only [List.map_cons, List.nodup_cons] at hnd
    obtain ⟨hk1, hnd⟩ := hnd
    rw [List.foldl_cons, ih _ hnd]
    by_cases hk : k1 = k
    · subst hk
      rw [BTree.get_eq_none_of_not_mem hk1]
      simp [BTree.get, BTree.get_insert_self]
    · have h2 : BTree.get ((k1, v1) :: l) k = BTree.get l k := by
        simp [BTree.get, hk]
      rw [h2, BTree.get_insert_ne _ _ _ _ (fun h => hk h.symm)]

theorem BTree.get_foldl_remove (ks : List (List Nat)) (t : BTree) (k : List Nat) :
    (ks.foldl (fun acc k2 => acc.remove k2) t).get k =
      if k ∈ ks then none else t.get k := by
  induction ks generalizing t with
  | nil => rfl
  | cons k2 ks ih =>
    rw [List.foldl_cons, ih]
    by_cases hmem : k ∈ ks
    · simp [hmem]
    · by_cases hk : k = k2
      · subst hk
        simp [hmem, BTree.get_remove_self]
      · simp [hmem, hk, BTree.get_remove_ne _ _ _ hk]

/-! ## Write transactions (`src/tx.rs`)

`WriteTx` stages mutations in a scratch tree `pending` plus a tombstone
list `deleted`; `commit` applies deletions then insertions to the main
tree and then calls `Database::persist_tree`.  The borrowed `db` field
is represented by passing the database tree explicitly; the I/O outcome
of `persist_tree` is a boolean parameter. -/

/-- The staged state of a `WriteTx` (fields `pending` and `deleted` of
`src/tx.rs::WriteTx`). -/
structure TxPending where
  pending : BTree
  deleted : List (List Nat)
  deriving DecidableEq

/-- A fresh `WriteTx` (src/tx.rs `WriteTx::new`). -/
def TxPending.new : TxPending := ⟨BTree.new, []⟩

/-- src/tx.rs `WriteTx::put`: drop the key from the tombstones, stage the
insertion. -/
def TxPending.put (tx : TxPending) (key value : List Nat) : TxPending :=
  { deleted := tx.deleted.filter (fun k => k ≠ key)
    pending := tx.pending.insert key value }

/-- src/tx.rs `WriteTx::delete`: unstage any pending insert, record the
tombstone (once). -/
def TxPending.del (tx : TxPending) (key : List Nat) : TxPending :=
  { pending := tx.pending.remove key
    deleted :=
      if tx.deleted.any (fun k => k == key) then tx.deleted
      else tx.deleted ++ [key] }

/-- A put or delete operation staged through the `WriteTx` API. -/
inductive TxOp
  | put (key value : List Nat)
  | del (key : List Nat)
  deriving DecidableEq

def TxPending.applyOp (tx : TxPending) : TxOp → TxPending
  | .put k v => tx.put k v
  | .del k => tx.del k

/-- Stage a sequence of `put`/`delete` calls on a fresh `WriteTx`. -/
def stageOps (ops : List TxOp) : TxPending :=
  ops.foldl TxPending.applyOp TxPending.new

def TxOp.key : TxOp → List Nat
  | .put k _ => k
  | .del k => k

/-- The last staged operation that touches key `k`. -/
def lastOpOn (k : List Nat) (ops : List TxOp) : Option TxOp :=
  (ops.filter (fun op => op.key = k)).getLast?

/-- src/tx.rs `WriteTx::commit`, steps 1-2: apply deletions to the main
tree, then apply pending insertions (in iteration order). -/
def applyStaged (tree : BTree) (tx : TxPending) : BTree :=
  tx.pending.foldl (fun t e => t.insert e.1 e.2)
    (tx.deleted.foldl (fun t k => t.remove k) tree)

inductive TxError
  | txCommitFailed
  deriving DecidableEq

/-- src/tx.rs `WriteTx::commit`: mutate the main tree, then persist.
`persistOk` is the outcome of `Database::persist_tree` (`false` models
an I/O failure inside it).  Returns the commit result together with the
database tree as left behind by the call. -/
def writeTxCommit (tree : BTree) (tx : TxPending) (persistOk : Bool) :
    Except TxError Unit × BTree :=
  let tree2 := applyStaged tree tx
  if persistOk then (.ok (), tree2) else (.error .txCommitFailed, tree2)

/-- src/tx.rs `ReadTx::get`: straight lookup in the database tree. -/
def readTxGet (tree : BTree) (key : List Nat) : Option (List Nat) :=
  tree.get key

/-! ## Page constants (`src/page.rs`) -/

/-- src/page.rs `PAGE_SIZE` (4 KiB). -/
def PAGE_SIZE : Nat := 4096

/-- src/page.rs `MAGIC` ("THND"). -/
def MAGIC : Nat := 0x54484E44

/-- src/page.rs `VERSION`. -/
def VERSION : Nat := 2

/-- src/page.rs `PageSizeConfig::is_valid`. -/
def pageSizeValid (v : Nat) : Bool :=
  (v == 4096) || (v == 8192) || (v == 16384) || (v == 65536)

/-! ## CRC32 (IEEE, reversed polynomial 0xEDB88320)

`src/overflow.rs::compute_checksum` is the bitwise variant;
`src/wal_record.rs::crc32_checksum` is the table-based variant whose
table entries are eight bitwise rounds of the index. -/

def CRC_POLY : Nat := 0xEDB88320

/-- One shift-xor round of the reversed-polynomial CRC32. -/
def crcRound (c : Nat) : Nat :=
  if c % 2 = 1 then (c / 2) ^^^ CRC_POLY else c / 2

def crcRounds : Nat → Nat → Nat
  | 0, c => c
  | n + 1, c => crcRounds n (crcRound c)

/-- src/overflow.rs `OverflowManager::compute_checksum`. -/
def overflowChecksum (data : List Nat) : Nat :=
  (data.foldl (fun crc b => crcRounds 8 (crc ^^^ b)) 0xFFFFFFFF) ^^^ 0xFFFFFFFF

/-- src/wal_record.rs `generate_crc32_table` entry `i`. -/
def crc32Table (i : Nat) : Nat := crcRounds 8 i

/-- src/wal_record.rs `crc32_checksum` (table-based). -/
def crc32 (data : List Nat) : Nat :=
  (data.foldl (fun crc b => crc32Table ((crc ^^^ b) % 256) ^^^ (crc / 256))
    0xFFFFFFFF) ^^^ 0xFFFFFFFF

/-! ## Meta pages (crate module `meta`, referenced by `src/db.rs`) -/

/-- Modelled from the spec (§4.1): the meta page record of the crate
module `meta`, which is not part of the source tree.  Field layout
`magic | version | page_size | txid | root | checkpoint_lsn |
entry_count | bloom_ref | crc32`. -/
structure Meta where
  magic : Nat
  version : Nat
  page_size : Nat
  txid : Nat
  root : Nat
  checkpoint_lsn : Nat
  entry_count : Nat
  bloom_ref : Nat
  crc : Nat
  deriving DecidableEq

/-- Modelled from the spec (§4.1): the checksummed portion of a meta
page. -/
def Meta.payloadBytes (m : Meta) : List Nat :=
  leN 4 m.magic ++ leN 4 m.version ++ leN 4 m.page_size ++ leN 8 m.txid ++
  leN 8 m.root ++ leN 8 m.checkpoint_lsn ++ leN 8 m.entry_count ++
  leN 16 m.bloom_ref

/-- Modelled from the spec (§4.1): `Meta::validate` recomputes the crc32
and checks magic, version and page size. -/
def Meta.validate (m : Meta) : Bool :=
  (crc32 m.payloadBytes == m.crc) && (m.magic == MAGIC) &&
    (m.version == VERSION) && pageSizeValid m.page_size

/-! ## Database open/persist (`src/db.rs`) -/

inductive DbError
  | corrupted (ctx : String)
  | entryReadFailed (field : String)
  | bothMetaPagesInvalid
  | invalidMetaPage (page : Nat)
  deriving DecidableEq

/-- src/db.rs `Database::load_meta`, selection logic over the two parsed
meta slots (`Meta::from_bytes` results). -/
def loadMeta (slot0 slot1 : Option Meta) : Except DbError Meta :=
  match slot0, slot1 with
  | some m0, some m1 =>
    if !m0.validate && !m1.validate then .error .bothMetaPagesInvalid
    else if !m0.validate then .ok m1
    else if !m1.validate then .ok m0
    else if m0.txid < m1.txid then .ok m1
    else .ok m0
  | some m, none =>
    if m.validate then .ok m else .error (.invalidMetaPage 0)
  | none, some m =>
    if m.validate then .ok m else .error (.invalidMetaPage 1)
  | none, none => .error .bothMetaPagesInvalid

/-- One entry as written by src/db.rs `Database::persist_tree`:
`key_len:u32 || key || value_len:u32 || value`. -/
def entryBytes (e : List Nat × List Nat) : List Nat :=
  leN 4 e.1.length ++ e.1 ++ leN 4 e.2.length ++ e.2

def entriesBytes : List (List Nat × List Nat) → List Nat
  | [] => []
  | e :: rest => entryBytes e ++ entriesBytes rest

/-- src/db.rs `Database::persist_tree`: the byte image of the data
section (file offset `2*PAGE_SIZE` onward) after a full rewrite: entry
count, then each entry in iteration order. -/
def persistDataBytes (t : BTree) : List Nat :=
  leN 8 t.len ++ entriesBytes t

/-- src/db.rs `Database::persist_tree`, meta effect: `txid += 1` and
`root = 0` iff the tree is empty. -/
def persistMeta (m : Meta) (t : BTree) : Meta :=
  { m with txid := m.txid + 1, root := if t.isEmpty then 0 else 1 }

/-- src/db.rs `Database::load_tree`, per-entry loop.  Consumes bytes
from the front (the reads are sequential); returns the tree and the
number of bytes consumed. -/
def loadEntries : Nat → List Nat → BTree → Except DbError (BTree × Nat)
  | 0, _, t => .ok (t, 0)
  | n + 1, bytes, t =>
    if bytes.length < 4 then .error (.entryReadFailed "key length")
    else
      let key_len := readLEN 4 bytes
      if 64 * 1024 < key_len then .error (.corrupted "loading entry key")
      else
        let rest1 := bytes.drop 4
        if rest1.length < key_len then .error (.entryReadFailed "key data")
        else
          let key := rest1.take key_len
          let rest2 := rest1.drop key_len
          if rest2.length < 4 then .error (.entryReadFailed "value length")
          else
            let value_len := readLEN 4 rest2
            if 512 * 1024 * 1024 < value_len then
              .error (.corrupted "loading entry value")
            else
              let rest3 := rest2.drop 4
              if rest3.length < value_len then
                .error (.entryReadFailed "value data")
              else
                let value := rest3.take value_len
                match loadEntries n (rest3.drop value_len) (t.insert key value) with
                | .ok (t2, consumed) =>
                  .ok (t2, 4 + key_len + 4 + value_len + consumed)
                | .error e => .error e

/-- src/db.rs `Database::load_tree`: `root = 0` means no data; a short
count read means an empty database; the entry count is bounded by
100 million.  Input is the data section (file bytes from offset
`2*PAGE_SIZE`); returns tree, end offset and entry count. -/
def loadTree (root : Nat) (bytes : List Nat) :
    Except DbError (BTree × Nat × Nat) :=
  if root = 0 then .ok (BTree.new, 2 * PAGE_SIZE + 8, 0)
  else if bytes.length < 8 then .ok (BTree.new, 2 * PAGE_SIZE + 8, 0)
  else
    let entryCount := readLEN 8 bytes
    if 100000000 < entryCount then .error (.corrupted "loading data entries")
    else
      match loadEntries entryCount (bytes.drop 8) BTree.new with
      | .ok (t, consumed) => .ok (t, 2 * PAGE_SIZE + 8 + consumed, entryCount)
      | .error e => .error e

/-! ## Overflow chains (`src/overflow.rs`) -/

def OVERFLOW_HEADER_SIZE : Nat := 24

/-- src/overflow.rs `OverflowHeader`. -/
structure OverflowHeader where
  page_type : Nat
  next_page : Nat
  data_len : Nat
  checksum : Nat
  deriving DecidableEq

/-- src/overflow.rs `OverflowHeader::to_bytes`. -/
def OverflowHeader.toBytes (h : OverflowHeader) : List Nat :=
  [h.page_type % 256] ++ List.replicate 7 0 ++ leN 8 h.next_page ++
  leN 4 h.data_len ++ leN 4 h.checksum

/-- src/overflow.rs `OverflowHeader::from_bytes`. -/
def OverflowHeader.fromBytes (buf : List Nat) : Option OverflowHeader :=
  if buf.length < 24 then none
  else if buf.headD 0 ≠ 5 then none
  else some ⟨buf.headD 0, readLEN 8 (buf.drop 8), readLEN 4 (buf.drop 16),
    readLEN 4 (buf.drop 20)⟩

/-- src/overflow.rs `OverflowRef`. -/
structure OverflowRef where
  start_page : Nat
  total_len : Nat
  deriving DecidableEq

/-- src/overflow.rs `OverflowManager` (fields used by allocate/read). -/
structure OverflowManager where
  next_page_id : Nat
  free_pages : List Nat
  page_size : Nat
  deriving DecidableEq

/-- src/overflow.rs `OverflowManager::alloc_page`: pop from the free
list (a `Vec`, so from the back), else take and bump `next_page_id`. -/
def OverflowManager.allocPage (m : OverflowManager) : OverflowManager × Nat :=
  match m.free_pages.getLast? with
  | some pid => ({ m with free_pages := m.free_pages.dropLast }, pid)
  | none => ({ m with next_page_id := m.next_page_id + 1 }, m.next_page_id)

/-- One overflow page as built in `allocate_overflow`: header, chunk,
zero padding up to `page_size`. -/
def overflowPage (pageSize nextPage : Nat) (chunk : List Nat) : List Nat :=
  OverflowHeader.toBytes ⟨5, nextPage, chunk.length % 2 ^ 32, overflowChecksum chunk⟩ ++
    chunk ++ List.replicate (pageSize - OVERFLOW_HEADER_SIZE - chunk.length) 0

/-- src/overflow.rs `allocate_overflow`, chunking loop.  `fuel` bounds
the recursion; `value.length` fuel suffices whenever
`page_size > OVERFLOW_HEADER_SIZE` since every iteration consumes at
least one byte. -/
def allocateLoop (m : OverflowManager) (currentPageId : Nat)
    (remaining : List Nat) : Nat → OverflowManager × List (Nat × List Nat)
  | 0 => (m, [])
  | fuel + 1 =>
    if remaining.isEmpty then (m, [])
    else
      let chunkLen := min remaining.length (m.page_size - OVERFLOW_HEADER_SIZE)
      let chunk := remaining.take chunkLen
      let rest := remaining.drop chunkLen
      let next := if rest.isEmpty then (m, 0) else m.allocPage
      let page := overflowPage m.page_size next.2 chunk
      let outcome := allocateLoop next.1 next.2 rest fuel
      (outcome.1, (currentPageId, page) :: outcome.2)

/-- src/overflow.rs `OverflowManager::allocate_overflow`. -/
def allocateOverflow (m : OverflowManager) (value : List Nat) :
    OverflowManager × OverflowRef × List (Nat × List Nat) :=
  if value.isEmpty then (m, ⟨0, 0⟩, [])
  else
    let first := m.allocPage
    let outcome := allocateLoop first.1 first.2 value value.length
    (outcome.1, ⟨first.2, value.length % 2 ^ 32⟩, outcome.2)

/-- Modelled from the spec (§4.11): the memory-map accessor of the crate
module `mmap` (not in the source tree); `page_with_size(id, sz)` returns
the `sz` bytes at offset `id × sz`.  Here a store built from the pages
written by `allocate_overflow`. -/
def pageStore (pages : List (Nat × List Nat)) : Nat → Option (List Nat) :=
  fun pid => (pages.find? (fun e => e.1 == pid)).map (fun e => e.2)

/-- src/overflow.rs `read_overflow`, chain walk.  `fuel` is the residue
of the `MAX_CHAIN_LENGTH` cap (1,000,000 pages). -/
def readOverflowLoop (store : Nat → Option (List Nat)) (acc : List Nat)
    (current : Nat) : Nat → Option (List Nat)
  | 0 => some acc
  | fuel + 1 =>
    if current = 0 then some acc
    else
      match store current with
      | none => none
      | some page_data =>
        match OverflowHeader.fromBytes page_data with
        | none => none
        | some header =>
          let dataEnd := OVERFLOW_HEADER_SIZE + header.data_len
          if page_data.length < dataEnd then none
          else
            let chunk := (page_data.take dataEnd).drop OVERFLOW_HEADER_SIZE
            if overflowChecksum chunk ≠ header.checksum then none
            else readOverflowLoop store (acc ++ chunk) header.next_page fuel

/-- src/overflow.rs `OverflowManager::read_overflow`. -/
def readOverflow (store : Nat → Option (List Nat)) (ref : OverflowRef) :
    Option (List Nat) :=
  if ref.start_page = 0 then some []
  else
    match readOverflowLoop store [] ref.start_page 1000000 with
    | none => none
    | some result =>
      if result.length ≠ ref.total_len then none else some result

/-- The page chain `allocate_overflow` lays out when the free list is
empty: consecutive page ids from `n`, each page holding one chunk and
linking to the next (0 on the last). -/
def buildChain (ps : Nat) : Nat → List Nat → Nat → List (Nat × List Nat)
  | _, _, 0 => []
  | n, rem, fuel + 1 =>
    if rem.isEmpty then []
    else
      let chunkLen := min rem.length (ps - OVERFLOW_HEADER_SIZE)
      let chunk := rem.take chunkLen
      let rest := rem.drop chunkLen
      if rest.isEmpty then [(n, overflowPage ps 0 chunk)]
      else (n, overflowPage ps (n + 1) chunk) :: buildChain ps (n + 1) rest fuel

/-! ## WAL records (`src/wal_record.rs`) -/

def RECORD_HEADER_SIZE : Nat := 9

def MAX_RECORD_PAYLOAD : Nat := 64 * 1024 * 1024

def MAX_KEY_SIZE : Nat := 64 * 1024

/-- src/wal_record.rs `WalRecord`. -/
inductive WalRecord
  | put (key value : List Nat)
  | delete (key : List Nat)
  | txBegin (txid : Nat)
  | txCommit (txid : Nat)
  | txAbort (txid : Nat)
  | checkpoint (lsn : Nat)
  deriving DecidableEq

/-- src/wal_record.rs `WalRecord::record_type`. -/
def WalRecord.recordType : WalRecord → Nat
  | .put _ _ => 1
  | .delete _ => 2
  | .txBegin _ => 3
  | .txCommit _ => 4
  | .txAbort _ => 5
  | .checkpoint _ => 6

/-- src/wal_record.rs `WalRecord::encode_payload`. -/
def WalRecord.encodePayload : WalRecord → List Nat
  | .put k v => leN 4 k.length ++ k ++ leN 4 v.length ++ v
  | .delete k => leN 4 k.length ++ k
  | .txBegin t => leN 8 t
  | .txCommit t => leN 8 t
  | .txAbort t => leN 8 t
  | .checkpoint l => leN 8 l

/-- src/wal_record.rs `WalRecord::encode`:
`[len:u32][type:u8][crc32:u32][payload]`, crc over type byte plus
payload. -/
def WalRecord.encode (r : WalRecord) : List Nat :=
  let payload := r.encodePayload
  leN 4 (RECORD_HEADER_SIZE + payload.length) ++ [r.recordType] ++
    leN 4 (crc32 (r.recordType :: payload)) ++ payload

inductive WalError
  | walRecordInvalid (reason : String)
  deriving DecidableEq

/-- src/wal_record.rs `WalRecord::decode_payload`. -/
def WalRecord.decodePayload (rtype : Nat) (payload : List Nat) :
    Except WalError WalRecord :=
  if rtype = 1 then
    if payload.length < 8 then .error (.walRecordInvalid "Put payload too small")
    else
      let key_len := readLEN 4 payload
      if MAX_KEY_SIZE < key_len then
        .error (.walRecordInvalid "key size exceeds maximum")
      else if payload.length < 4 + key_len + 4 then
        .error (.walRecordInvalid "Put payload truncated")
      else
        let key := (payload.drop 4).take key_len
        let value_len := readLEN 4 (payload.drop (4 + key_len))
        if payload.length < 4 + key_len + 4 + value_len then
          .error (.walRecordInvalid "Put value truncated")
        else
          .ok (.put key ((payload.drop (4 + key_len + 4)).take value_len))
  else if rtype = 2 then
    if payload.length < 4 then
      .error (.walRecordInvalid "Delete payload too small")
    else
      let key_len := readLEN 4 payload
      if MAX_KEY_SIZE < key_len then
        .error (.walRecordInvalid "key size exceeds maximum")
      else if payload.length < 4 + key_len then
        .error (.walRecordInvalid "Delete key truncated")
      else .ok (.delete ((payload.drop 4).take key_len))
  else if rtype = 3 then
    if payload.length < 8 then
      .error (.walRecordInvalid "TxBegin payload too small")
    else .ok (.txBegin (readLEN 8 payload))
  else if rtype = 4 then
    if payload.length < 8 then
      .error (.walRecordInvalid "TxCommit payload too small")
    else .ok (.txCommit (readLEN 8 payload))
  else if rtype = 5 then
    if payload.length < 8 then
      .error (.walRecordInvalid "TxAbort payload too small")
    else .ok (.txAbort (readLEN 8 payload))
  else if rtype = 6 then
    if payload.length < 8 then
      .error (.walRecordInvalid "Checkpoint payload too small")
    else .ok (.checkpoint (readLEN 8 payload))
  else .error (.walRecordInvalid "invalid record type")

/-- src/wal_record.rs `WalRecord::decode`: header checks, length bounds,
type validation, CRC check, payload decode.  Returns the record and the
number of bytes consumed. -/
def WalRecord.decode (data : List Nat) : Except WalError (WalRecord × Nat) :=
  if data.length < RECORD_HEADER_SIZE then
    .error (.walRecordInvalid "buffer too small")
  else
    let total_len := readLEN 4 data
    let record_type := (data.drop 4).headD 0
    let stored_crc := readLEN 4 (data.drop 5)
    if total_len < RECORD_HEADER_SIZE then
      .error (.walRecordInvalid "invalid record length")
    else if data.length < total_len then
      .error (.walRecordInvalid "record length exceeds buffer size")
    else if MAX_RECORD_PAYLOAD < total_len - RECORD_HEADER_SIZE then
      .error (.walRecordInvalid "payload size exceeds maximum")
    else if !(1 ≤ record_type && record_type ≤ 6) then
      .error (.walRecordInvalid "invalid record type")
    else
      let payload := (data.take total_len).drop RECORD_HEADER_SIZE
      if crc32 (record_type :: payload) ≠ stored_crc then
        .error (.walRecordInvalid "CRC mismatch")
      else
        match WalRecord.decodePayload record_type payload with
        | .ok r => .ok (r, total_len)
        | .error e => .error e

/-- The representation invariants of a `WalRecord` as Rust sees it:
keys at most 64 KiB, payload at most 64 MiB (the decode-side bounds of
§4.6), and txid/lsn fitting in their `u64` type. -/
def WalRecord.sizeOk : WalRecord → Prop
  | .put k v => k.length ≤ MAX_KEY_SIZE ∧ 8 + k.length + v.length ≤ MAX_RECORD_PAYLOAD
  | .delete k => k.length ≤ MAX_KEY_SIZE
  | .txBegin t => t < 2 ^ 64
  | .txCommit t => t < 2 ^ 64
  | .txAbort t => t < 2 ^ 64
  | .checkpoint l => l < 2 ^ 64

/-! ## Bloom filter (`src/bloom.rs`) -/

def FNV_OFFSET_BASIS : Nat := 0xcbf29ce484222325

def FNV_PRIME : Nat := 0x100000001b3

/-- src/bloom.rs `fnv1a_hash` (wrapping 64-bit arithmetic). -/
def fnv1a (data : List Nat) (seed : Nat) : Nat :=
  data.foldl (fun h b => ((h ^^^ b) * FNV_PRIME) % 2 ^ 64)
    (FNV_OFFSET_BASIS ^^^ seed)

/-- src/bloom.rs `BloomFilter` (bit array as 64-bit words). -/
structure BloomFilter where
  bits : List Nat
  num_hashes : Nat
  num_bits : Nat
  item_count : Nat
  deriving DecidableEq

def BLOOM_SEED2 : Nat := 0x517cc1b727220a95

/-- src/bloom.rs `BloomFilter::hash_pair`. -/
def BloomFilter.hashPair (key : List Nat) : Nat × Nat :=
  (fnv1a key 0, fnv1a key BLOOM_SEED2)

/-- src/bloom.rs `BloomFilter::get_bit_index`:
`(h1.wrapping_add(i.wrapping_mul(h2))) % num_bits`. -/
def BloomFilter.getBitIndex (f : BloomFilter) (h1 h2 i : Nat) : Nat :=
  ((h1 + i * h2 % 2 ^ 64) % 2 ^ 64) % f.num_bits

/-- The body of the insert loop: `bits[idx / 64] |= 1 << (idx % 64)`
(reads and writes out of range cannot occur for well-formed filters;
they read 0 / are no-ops here where Rust would panic). -/
def bloomSetBit (bts : List Nat) (idx : Nat) : List Nat :=
  bts.set (idx / 64) (bts.getD (idx / 64) 0 ||| 1 <<< (idx % 64))

/-- src/bloom.rs `BloomFilter::insert`. -/
def BloomFilter.insert (f : BloomFilter) (key : List Nat) : BloomFilter :=
  let hp := BloomFilter.hashPair key
  let bits := (List.range f.num_hashes).foldl (fun bts i =>
    bloomSetBit bts (f.getBitIndex hp.1 hp.2 i)) f.bits
  { f with bits := bits, item_count := f.item_count + 1 }

/-- src/bloom.rs `BloomFilter::may_contain`. -/
def BloomFilter.mayContain (f : BloomFilter) (key : List Nat) : Bool :=
  let hp := BloomFilter.hashPair key
  (List.range f.num_hashes).all (fun i =>
    let idx := f.getBitIndex hp.1 hp.2 i
    f.bits.getD (idx / 64) 0 &&& 1 <<< (idx % 64) != 0)

/-- Structural well-formedness guaranteed by `BloomFilter::new`: the bit
count is a positive multiple of 64 matching the word array (`num_bits`
is rounded up to a u64 boundary and is at least 64). -/
def BloomFilter.wf (f : BloomFilter) : Prop :=
  f.num_bits = 64 * f.bits.length ∧ 0 < f.num_bits

/-- Bit `idx` of the filter's bit array is set. -/
def BloomFilter.hasBit (bits : List Nat) (idx : Nat) : Prop :=
  (bits.getD (idx / 64) 0).testBit (idx % 64)

/-! ## Checkpoint triggers (`src/checkpoint.rs`) -/

/-- src/checkpoint.rs `CheckpointConfig` (durations in, say,
milliseconds; any fixed unit works). -/
structure CheckpointConfig where
  interval : Nat
  wal_threshold : Nat
  min_records : Nat
  deriving DecidableEq

/-- src/checkpoint.rs `CheckpointManager` state.
`has_last_checkpoint_time` models `last_checkpoint_time.is_some()`. -/
structure CheckpointState where
  config : CheckpointConfig
  last_checkpoint_lsn : Nat
  has_last_checkpoint_time : Bool
  records_since_checkpoint : Nat
  wal_size_at_checkpoint : Nat
  deriving DecidableEq

/-- src/checkpoint.rs `should_checkpoint`, WAL-growth and record-count
checks (the code after the time-based block). -/
def shouldCheckpointTail (m : CheckpointState) (currentWalSize : Nat) : Bool :=
  if m.config.wal_threshold ≤ currentWalSize - m.wal_size_at_checkpoint then true
  else if m.config.min_records ≤ m.records_since_checkpoint then true
  else false

/-- src/checkpoint.rs `CheckpointManager::should_checkpoint`.  `elapsed`
is `last_time.elapsed()` (meaningful when `has_last_checkpoint_time`);
`currentWalSize` is `wal.approximate_size()`. -/
def shouldCheckpoint (m : CheckpointState) (elapsed currentWalSize : Nat) : Bool :=
  if m.has_last_checkpoint_time then
    if m.config.interval ≤ elapsed then true
    else shouldCheckpointTail m currentWalSize
  else if 0 < m.records_since_checkpoint then
    m.config.min_records ≤ m.records_since_checkpoint
  else shouldCheckpointTail m currentWalSize

/-! ## Group commit (`src/group_commit.rs`)

The coordinator protocol of `GroupCommitManager::commit` /
`run_leader`, modelled as an interleaved transition system over
committer threads (identified by `Nat`).  `Wal::append`/`Wal::sync` are
from the crate module `wal`, which is not in the source tree; modelled
from the spec (§5): append order defines LSN order, and an fsync at LSN
`L` makes every record with LSN ≤ `L` durable — here `walLen` counts
appended records and `durableLen` is the durability watermark set by a
successful sync. -/

/-- Result delivered through a `PendingCommit` completion slot: `Ok(())`
or `GroupCommitFailed` carrying the sync failure cause. -/
inductive CommitResult
  | ok
  | groupCommitFailed (cause : Nat)
  deriving DecidableEq

/-- Where a committer thread is inside `commit(lsn)`. -/
inductive GCPhase
  | idle
  | appended
  | queued
  | taken
  | notified (r : CommitResult)
  | returned (r : CommitResult)
  deriving DecidableEq

/-- Where the leader is inside `run_leader`. -/
inductive LeaderPhase
  | collecting
  | syncing (bid : Nat) (batch : List Nat)
  | notifying (bid : Nat) (remaining : List Nat) (res : CommitResult)
  deriving DecidableEq

/-- State of the coordinator plus ghost bookkeeping (`pos`, `batchOf`,
`batchRes`, `nextBatch` record which sync served which commit). -/
structure GCState where
  phase : Nat → GCPhase
  pos : Nat → Nat
  walLen : Nat
  durableLen : Nat
  pending : List Nat
  leader : Option (Nat × LeaderPhase)
  batchOf : Nat → Option Nat
  nextBatch : Nat
  batchRes : Nat → Option CommitResult

/-- Initial state: no appends, no queue, no leader. -/
def GCInit : GCState where
  phase := fun _ => .idle
  pos := fun _ => 0
  walLen := 0
  durableLen := 0
  pending := []
  leader := none
  batchOf := fun _ => none
  nextBatch := 0
  batchRes := fun _ => none

/-- One interleaved step of the group-commit protocol
(`GroupCommitManager::commit` and `run_leader`). -/
inductive GCStep : GCState → GCState → Prop
  /-- A committer appends its record to the WAL (before calling
  `commit(lsn)`); its LSN is the current end of the log. -/
  | append (s : GCState) (t : Nat) (h : s.phase t = .idle) :
      GCStep s { s with
        phase := fun x => if x = t then .appended else s.phase x
        pos := fun x => if x = t then s.walLen else s.pos x
        walLen := s.walLen + 1 }
  /-- `commit`: push onto `pending`; no leader active, so become the
  leader (`should_lead = true`). -/
  | enqueueLead (s : GCState) (t : Nat) (h : s.phase t = .appended)
      (hl : s.leader = none) :
      GCStep s { s with
        phase := fun x => if x = t then .queued else s.phase x
        pending := s.pending ++ [t]
        leader := some (t, .collecting) }
  /-- `commit`: push onto `pending` while a leader is active; wait. -/
  | enqueueFollow (s : GCState) (t l : Nat) (lp : LeaderPhase)
      (h : s.phase t = .appended) (hl : s.leader = some (l, lp)) :
      GCStep s { s with
        phase := fun x => if x = t then .queued else s.phase x
        pending := s.pending ++ [t] }
  /-- `run_leader`: atomically take the queue as this batch. -/
  | take (s : GCState) (l : Nat) (hl : s.leader = some (l, .collecting)) :
      GCStep s { s with
        phase := fun x => if x ∈ s.pending then .taken else s.phase x
        pending := []
        leader := some (l, .syncing s.nextBatch s.pending)
        batchOf := fun x => if x ∈ s.pending then some s.nextBatch else s.batchOf x
        nextBatch := s.nextBatch + 1 }
  /-- `run_leader`: `wal.sync()` succeeds; everything appended so far
  becomes durable. -/
  | syncOk (s : GCState) (l bid : Nat) (batch : List Nat)
      (hl : s.leader = some (l, .syncing bid batch)) :
      GCStep s { s with
        durableLen := s.walLen
        leader := some (l, .notifying bid batch .ok)
        batchRes := fun b => if b = bid then some .ok else s.batchRes b }
  /-- `run_leader`: `wal.sync()` fails with `cause`; nothing new becomes
  durable. -/
  | syncErr (s : GCState) (l bid : Nat) (batch : List Nat) (cause : Nat)
      (hl : s.leader = some (l, .syncing bid batch)) :
      GCStep s { s with
        leader := some (l, .notifying bid batch (.groupCommitFailed cause))
        batchRes := fun b =>
          if b = bid then some (.groupCommitFailed cause) else s.batchRes b }
  /-- `run_leader`: store the sync result into the next waiter's
  completion slot and signal it. -/
  | notify (s : GCState) (l bid : Nat) (t : Nat) (rest : List Nat)
      (res : CommitResult)
      (hl : s.leader = some (l, .notifying bid (t :: rest) res)) :
      GCStep s { s with
        phase := fun x => if x = t then .notified res else s.phase x
        leader := some (l, .notifying bid rest res) }
  /-- `run_leader`: all waiters notified; release leadership. -/
  | finish (s : GCState) (l bid : Nat) (res : CommitResult)
      (hl : s.leader = some (l, .notifying bid [] res)) :
      GCStep s { s with leader := none }
  /-- `commit`: a notified committer wakes on its condition variable and
  returns the stored result. -/
  | ret (s : GCState) (t : Nat) (r : CommitResult)
      (h : s.phase t = .notified r) :
      GCStep s { s with
        phase := fun x => if x = t then .returned r else s.phase x }

/-- Reachability from the initial coordinator state. -/
def GCReachable (s : GCState) : Prop :=
  Relation.ReflTransGen GCStep GCInit s

/-- Inductive invariant of the group-commit protocol: the durability
watermark never exceeds the log, appended records sit below the log
end, queued and batched threads are in the matching phases, each
batch's result slot is written exactly once by its own sync, and a
notified or returned thread carries exactly its batch's result — with
`Ok` only when its own record is below the durability watermark. -/
def GCInv (s : GCState) : Prop :=
  s.durableLen ≤ s.walLen
  ∧ (∀ t, s.phase t ≠ GCPhase.idle → s.pos t < s.walLen)
  ∧ (∀ t ∈ s.pending, s.phase t = GCPhase.queued)
  ∧ s.pending.Nodup
  ∧ (∀ b, s.nextBatch ≤ b → s.batchRes b = none)
  ∧ (∀ l bid batch, s.leader = some (l, LeaderPhase.syncing bid batch) →
      bid < s.nextBatch ∧ s.batchRes bid = none ∧ batch.Nodup
      ∧ (∀ t ∈ batch, s.phase t = GCPhase.taken ∧ s.batchOf t = some bid))
  ∧ (∀ l bid remaining res,
      s.leader = some (l, LeaderPhase.notifying bid remaining res) →
      s.batchRes bid = some res ∧ remaining.Nodup
      ∧ (∀ t ∈ remaining, s.phase t = GCPhase.taken ∧ s.batchOf t = some bid)
      ∧ (res = CommitResult.ok → ∀ t ∈ remaining, s.pos t < s.durableLen))
  ∧ (∀ t r, s.phase t = GCPhase.notified r ∨ s.phase t = GCPhase.returned r →
      (∃ b, s.batchOf t = some b ∧ s.batchRes b = some r)
      ∧ (r = CommitResult.ok → s.pos t < s.durableLen))

/-- Concrete protocol run, used to exhibit a reachable state with a
returned commit: thread 0 appends. -/
def gcS1 : GCState :=
  { GCInit with
    phase := fun x => if x = 0 then GCPhase.appended else GCInit.phase x
    pos := fun x => if x = 0 then GCInit.walLen else GCInit.pos x
    walLen := GCInit.walLen + 1 }

/-- Thread 0 enqueues and becomes the leader. -/
def gcS2 : GCState :=
  { gcS1 with
    phase := fun x => if x = 0 then GCPhase.queued else gcS1.phase x
    pending := gcS1.pending ++ [0]
    leader := some (0, LeaderPhase.collecting) }

/-- The leader takes the queue as batch 0. -/
def gcS3 : GCState :=
  { gcS2 with
    phase := fun x => if x ∈ gcS2.pending then GCPhase.taken else gcS2.phase x
    pending := []
    leader := some (0, LeaderPhase.syncing gcS2.nextBatch gcS2.pending)
    batchOf := fun x =>
      if x ∈ gcS2.pending then some gcS2.nextBatch else gcS2.batchOf x
    nextBatch := gcS2.nextBatch + 1 }

/-- The sync succeeds. -/
def gcS4 : GCState :=
  { gcS3 with
    durableLen := gcS3.walLen
    leader := some (0, LeaderPhase.notifying 0 [0] CommitResult.ok)
    batchRes := fun b => if b = 0 then some CommitResult.ok else gcS3.batchRes b }

/-- The leader notifies thread 0. -/
def gcS5 : GCState :=
  { gcS4 with
    phase := fun x => if x = 0 then GCPhase.notified CommitResult.ok
      else gcS4.phase x
    leader := some (0, LeaderPhase.notifying 0 [] CommitResult.ok) }

/-- Thread 0 wakes and returns `Ok`. -/
def gcS6 : GCState :=
  { gcS5 with
    phase := fun x => if x = 0 then GCPhase.returned CommitResult.ok
      else gcS5.phase x }

theorem lastOpOn_concat (k : List Nat) (ops : List TxOp) (op : TxOp) :
    lastOpOn k (ops ++ [op]) =
      if op.key = k then some op else lastOpOn k ops := by
  unfold lastOpOn
  rw [List.filter_append]
  by_cases h : op.key = k
  · simp [h, List.getLast?_concat]
  · simp [h]

/-- Invariant of the staging loop: the scratch tree holds the last-put
value per key, stays sorted, and the tombstone list holds exactly the
keys whose last staged operation is a delete. -/
theorem stageOps_spec (ops : List TxOp) :
    (stageOps ops).pending.Sorted ∧
    ∀ k : List Nat,
      ((stageOps ops).pending.get k =
        match lastOpOn k ops with
        | some (.put _ v) => some v
        | _ => none) ∧
      (k ∈ (stageOps ops).deleted ↔
        ∃ k2, lastOpOn k ops = some (.del k2)) := by
  induction ops using List.reverseRecOn with
  | nil =>
    refine ⟨BTree.sorted_new, fun k => ⟨rfl, ?_⟩⟩
    simp [stageOps, TxPending.new, lastOpOn]
  | append_singleton ops op ih =>
    obtain ⟨hsort, hih⟩ := ih
    have hstage : stageOps (ops ++ [op]) = (stageOps ops).applyOp op := by
      unfold stageOps
      rw [List.foldl_append, List.foldl_cons, List.foldl_nil]
    cases op with
    | put k2 v2 =>
      constructor
      · rw [hstage]
        exact BTree.sorted_insert hsort k2 v2
      · intro k
        rw [hstage]
        obtain ⟨hget, hdel⟩ := hih k
        rw [lastOpOn_concat]
        by_cases hk : k2 = k
        · subst hk
          constructor
          · simp [TxPending.applyOp, TxPending.put, BTree.get_insert_self, TxOp.key]
          · simp [TxPending.applyOp, TxPending.put, List.mem_filter, TxOp.key]
        · constructor
          · simp only [TxPending.applyOp, TxPending.put]
            rw [BTree.get_insert_ne _ _ _ _ (fun h => hk h.symm)]
            simpa [TxOp.key, hk] using hget
          · simp only [TxPending.applyOp, TxPending.put, List.mem_filter]
            simp only [TxOp.key, if_neg hk]
            constructor
            · intro ⟨hmem, _⟩
              exact hdel.mp hmem
            · intro hex
              refine ⟨hdel.mpr hex, by simpa using fun h => hk h.symm⟩
    | del k2 =>
      constructor
      · rw [hstage]
        exact BTree.sorted_remove hsort k2
      · intro k
        rw [hstage]
        obtain ⟨hget, hdel⟩ := hih k
        rw [lastOpOn_concat]
        by_cases hk : k2 = k
        · subst hk
          constructor
          · simp [TxPending.applyOp, TxPending.del, BTree.get_remove_self, TxOp.key]
          · simp only [TxPending.applyOp, TxPending.del, TxOp.key, if_pos rfl]
            constructor
            · intro _
              exact ⟨k2, rfl⟩
            · intro _
              by_cases hmem : (stageOps ops).deleted.any (fun k => k == k2) = true
              · simp only [if_pos hmem]
                simpa using hmem
              · simp only [if_neg hmem]
                simp
        · constructor
          · simp only [TxPending.applyOp, TxPending.del]
            rw [BTree.get_remove_ne _ _ _ (fun h => hk h.symm)]
            simpa [TxOp.key, hk] using hget
          · simp only [TxPending.applyOp, TxPending.del, TxOp.key, if_neg hk]
            by_cases hmem : (stageOps ops).deleted.any (fun k => k == k2) = true
            · have hmem2 : k2 ∈ (stageOps ops).deleted := by simpa using hmem
              simpa [hmem2] using hdel
            · simp only [if_neg hmem, List.mem_append, List.mem_singleton]
              constructor
              · intro hor
                rcases hor with hor | hor
                · exact hdel.mp hor
                · exact absurd hor.symm hk
              · intro hex
                exact Or.inl (hdel.mpr hex)

/-- Lookup in the committed tree, in terms of the staged state. -/
theorem applyStaged_get (tree : BTree) (tx : TxPending) (k : List Nat)
    (hnd : (tx.pending.map Prod.fst).Nodup) :
    (applyStaged tree tx).get k =
      match BTree.get tx.pending k with
      | some v => some v
      | none => if k ∈ tx.deleted then none else tree.get k := by
  unfold applyStaged
  rw [BTree.get_foldl_insert _ _ _ hnd, BTree.get_foldl_remove]

/-- What a lookup sees after a transaction staged `ops` is applied over
base tree `tree`: the last put value per key, `none` after a last
delete, the prior value for untouched keys. -/
theorem commit_tree_get (tree : BTree) (ops : List TxOp) (k : List Nat) :
    (applyStaged tree (stageOps ops)).get k =
      match lastOpOn k ops with
      | some (.put _ v) => some v
      | some (.del _) => none
      | none => tree.get k := by
  obtain ⟨hsort, hspec⟩ := stageOps_spec ops
  obtain ⟨hget, hdel⟩ := hspec k
  rw [applyStaged_get _ _ _ (BTree.sorted_nodupKeys hsort), hget]
  cases hl : lastOpOn k ops with
  | none =>
    have hnotdel : k ∉ (stageOps ops).deleted := by
      intro hmem
      obtain ⟨k2, hk2⟩ := hdel.mp hmem
      rw [hl] at hk2
      exact Option.noConfusion hk2
    simp [hnotdel]
  | some op =>
    cases op with
    | put k2 v => simp
    | del k2 =>
      have hmem : k ∈ (stageOps ops).deleted := hdel.mpr ⟨k2, hl⟩
      simp [hmem]

/-- C1: for every write transaction staging a finite sequence of put and
delete operations, after `commit()` returns `Ok` a subsequent read
transaction's `get` returns, for each key, the value of the last put of
that key (`none` if the last staged operation on the key was a delete),
and keys not touched by the transaction keep their prior value. -/
theorem claim1_roundtrip_last_write_wins (tree : BTree) (ops : List TxOp)
    (k : List Nat) :
    (writeTxCommit tree (stageOps ops) true).1 = .ok () ∧
    readTxGet (writeTxCommit tree (stageOps ops) true).2 k =
      match lastOpOn k ops with
      | some (.put _ v) => some v
      | some (.del _) => none
      | none => readTxGet tree k := by
  refine ⟨rfl, ?_⟩
  show (applyStaged tree (stageOps ops)).get k = _
  exact commit_tree_get tree ops k

/-- C3 counterexample: a commit whose persist step fails does return
`TxCommitFailed`, but the working set is NOT unchanged — the staged put
is already visible to subsequent read transactions. -/
theorem claim3_counterexample :
    (writeTxCommit BTree.new (stageOps [TxOp.put [97] [98]]) false).1 =
        .error .txCommitFailed ∧
    (writeTxCommit BTree.new (stageOps [TxOp.put [97] [98]]) false).2 ≠
        BTree.new ∧
    readTxGet (writeTxCommit BTree.new (stageOps [TxOp.put [97] [98]]) false).2 [97] =
        some [98] := by
  refine ⟨rfl, ?_, rfl⟩
  decide

/-- C3 (amended): if persisting fails during `WriteTx::commit`, the call
returns `TxCommitFailed`, but the staged changes have already been
applied to the working set, so subsequent read transactions observe the
staged state rather than the previous snapshot. -/
theorem claim3_commit_failure_mutates_working_set (tree : BTree)
    (ops : List TxOp) (k : List Nat) :
    (writeTxCommit tree (stageOps ops) false).1 = .error .txCommitFailed ∧
    readTxGet (writeTxCommit tree (stageOps ops) false).2 k =
      match lastOpOn k ops with
      | some (.put _ v) => some v
      | some (.del _) => none
      | none => readTxGet tree k := by
  refine ⟨rfl, ?_⟩
  show (applyStaged tree (stageOps ops)).get k = _
  exact commit_tree_get tree ops k

theorem leN_append_drop (k n : Nat) (x : List Nat) : (leN k n ++ x).drop k = x := by
  have h := List.drop_left (leN k n) x
  rwa [leN_length] at h

/-- Parsing one entry off the front of the data section. -/
theorem loadEntries_cons (k v rest : List Nat) (n : Nat) (acc : BTree)
    (hk : k.length ≤ 64 * 1024) (hv : v.length ≤ 512 * 1024 * 1024) :
    loadEntries (n + 1) (entryBytes (k, v) ++ rest) acc =
      match loadEntries n rest (acc.insert k v) with
      | .ok (t2, consumed) => .ok (t2, 4 + k.length + 4 + v.length + consumed)
      | .error e => .error e := by
  have hb : entryBytes (k, v) ++ rest
      = leN 4 k.length ++ (k ++ (leN 4 v.length ++ (v ++ rest))) := by
    simp [entryBytes, List.append_assoc]
  rw [hb]
  have h1 : readLEN 4 (leN 4 k.length ++ (k ++ (leN 4 v.length ++ (v ++ rest))))
      = k.length := by
    rw [readLEN_leN]
    exact Nat.mod_eq_of_lt (by norm_num; omega)
  have h2 : (leN 4 k.length ++ (k ++ (leN 4 v.length ++ (v ++ rest)))).drop 4
      = k ++ (leN 4 v.length ++ (v ++ rest)) := leN_append_drop _ _ _
  have h3 : (k ++ (leN 4 v.length ++ (v ++ rest))).take k.length = k :=
    List.take_left _ _
  have h4 : (k ++ (leN 4 v.length ++ (v ++ rest))).drop k.length
      = leN 4 v.length ++ (v ++ rest) := List.drop_left _ _
  have h5 : readLEN 4 (leN 4 v.length ++ (v ++ rest)) = v.length := by
    rw [readLEN_leN]
    exact Nat.mod_eq_of_lt (by norm_num; omega)
  have h6 : (leN 4 v.length ++ (v ++ rest)).drop 4 = v ++ rest :=
    leN_append_drop _ _ _
  have h7 : (v ++ rest).take v.length = v := List.take_left _ _
  have h8 : (v ++ rest).drop v.length = rest := List.drop_left _ _
  have hc1 : ¬((leN 4 k.length ++ (k ++ (leN 4 v.length ++ (v ++ rest)))).length < 4) := by
    simp only [List.length_append, leN_length]
    omega
  have hc2 : ¬(64 * 1024 < k.length) := by omega
  have hc3 : ¬((k ++ (leN 4 v.length ++ (v ++ rest))).length < k.length) := by
    simp only [List.length_append, leN_length]
    omega
  have hc4 : ¬((leN 4 v.length ++ (v ++ rest)).length < 4) := by
    simp only [List.length_append, leN_length]
    omega
  have hc5 : ¬(512 * 1024 * 1024 < v.length) := by omega
  have hc6 : ¬((v ++ rest).length < v.length) := by
    simp only [List.length_append]
    omega
  simp only [loadEntries, h1, h2, h3, h4, h5, h6, h7, h8, hc1, hc2, hc3, hc4,
    hc5, hc6, if_false]

/-- The per-entry loop of `load_tree` parses back exactly the entries
written by `persist_tree`, independent of any stale bytes after them. -/
theorem loadEntries_roundtrip (t : List (List Nat × List Nat)) (junk : List Nat)
    (acc : BTree)
    (hb : ∀ e ∈ t, e.1.length ≤ 64 * 1024 ∧ e.2.length ≤ 512 * 1024 * 1024) :
    loadEntries t.length (entriesBytes t ++ junk) acc =
      .ok (t.foldl (fun a e => a.insert e.1 e.2) acc, (entriesBytes t).length) := by
  induction t generalizing acc with
  | nil => simp [entriesBytes, loadEntries]
  | cons e t ih =>
    obtain ⟨k, v⟩ := e
    have hbe := hb (k, v) (List.mem_cons_self _ _)
    have hbt : ∀ e2 ∈ t, e2.1.length ≤ 64 * 1024 ∧ e2.2.length ≤ 512 * 1024 * 1024 :=
      fun e2 he2 => hb e2 (List.mem_cons_of_mem _ he2)
    show loadEntries (t.length + 1) ((entryBytes (k, v) ++ entriesBytes t) ++ junk) acc = _
    rw [List.append_assoc, loadEntries_cons _ _ _ _ _ hbe.1 hbe.2, ih _ hbt]
    show Except.ok (_, 4 + k.length + 4 + v.length + (entriesBytes t).length) = _
    have hlen : (entriesBytes ((k, v) :: t)).length
        = 4 + k.length + 4 + v.length + (entriesBytes t).length := by
      show (entryBytes (k, v) ++ entriesBytes t).length = _
      simp [entryBytes, leN_length]
      omega
    rw [hlen]
    rfl

/-- Inserting a key greater than every key of a sorted tree appends. -/
theorem BTree.insert_append_last (t : BTree) (k v : List Nat)
    (hall : ∀ e ∈ t, keyLt e.1 k = true) :
    t.insert k v = t ++ [(k, v)] := by
  induction t with
  | nil => simp [BTree.insert]
  | cons hd rest ih =>
    obtain ⟨k', v'⟩ := hd
    have hlt : keyLt k' k = true := hall (k', v') (List.mem_cons_self _ _)
    have h1 : keyLt k k' = false := keyLt_asymm hlt
    have h2 : k ≠ k' := by
      intro h
      rw [h] at hlt
      rw [keyLt_irrefl] at hlt
      exact Bool.noConfusion hlt
    simp only [BTree.insert, h1, Bool.false_eq_true, if_false, if_neg h2,
      List.cons_append]
    rw [ih (fun e he => hall e (List.mem_cons_of_mem _ he))]

/-- Re-inserting the entries of a sorted tree in iteration order into an
empty tree rebuilds it exactly. -/
theorem BTree.sorted_rebuild (t : BTree) (hs : t.Sorted) :
    t.foldl (fun a e => a.insert e.1 e.2) BTree.new = t := by
  induction t using List.reverseRecOn with
  | nil => rfl
  | append_singleton t e ih =>
    rw [BTree.Sorted, List.pairwise_append] at hs
    obtain ⟨hs1, _, hall⟩ := hs
    rw [List.foldl_append, List.foldl_cons, List.foldl_nil, ih hs1]
    have h := BTree.insert_append_last t e.1 e.2
      (fun e2 he2 => hall e2 he2 e (List.mem_singleton.mpr rfl))
    rw [h]

/-- C2 (amended): for every database state whose entries respect the
documented limits (keys ≤ 64 KiB, values ≤ 512 MiB, at most 10⁸
entries), reopening over the bytes written by `persist_tree` — with any
stale bytes after them — rebuilds exactly the same tree, with the root
marker written into the meta slot by `persist_tree`. -/
theorem claim2_durability_roundtrip (m : Meta) (t : BTree) (junk : List Nat)
    (hs : t.Sorted)
    (hb : ∀ e ∈ t, e.1.length ≤ 64 * 1024 ∧ e.2.length ≤ 512 * 1024 * 1024)
    (hcount : t.len ≤ 100000000) :
    loadTree (persistMeta m t).root (persistDataBytes t ++ junk) =
      .ok (t, 2 * PAGE_SIZE + 8 + (entriesBytes t).length, t.len) := by
  by_cases hemp : t = []
  · subst hemp
    simp [persistMeta, BTree.isEmpty, BTree.len, loadTree, entriesBytes, BTree.new]
  · have hroot : (persistMeta m t).root = 1 := by
      have : t.len ≠ 0 := by
        intro h
        exact hemp (List.length_eq_zero.mp h)
      simp [persistMeta, BTree.isEmpty, this]
    rw [hroot]
    have hA : persistDataBytes t ++ junk
        = leN 8 t.len ++ (entriesBytes t ++ junk) := by
      simp [persistDataBytes, List.append_assoc]
    rw [hA]
    have hpow : (256 : Nat) ^ 8 = 18446744073709551616 := by norm_num
    have hL : ¬((leN 8 t.len ++ (entriesBytes t ++ junk)).length < 8) := by
      simp only [List.length_append, leN_length]
      omega
    have hR : readLEN 8 (leN 8 t.len ++ (entriesBytes t ++ junk)) = t.len := by
      rw [readLEN_leN]
      exact Nat.mod_eq_of_lt (by omega)
    have hC : ¬(100000000 < t.len) := by omega
    have hD : (leN 8 t.len ++ (entriesBytes t ++ junk)).drop 8
        = entriesBytes t ++ junk := leN_append_drop _ _ _
    have hload : loadEntries t.len (entriesBytes t ++ junk) BTree.new
        = .ok (t, (entriesBytes t).length) := by
      have h := loadEntries_roundtrip t junk BTree.new hb
      rw [BTree.sorted_rebuild t hs] at h
      exact h
    simp only [loadTree, hL, hR, hC, hD, hload, if_false, one_ne_zero]

/-- A first entry whose key exceeds 64 KiB makes the entry loop fail
with `Corrupted`. -/
theorem loadEntries_big_key (n : Nat) (k v rest : List Nat) (acc : BTree)
    (hk : 64 * 1024 < k.length) (hk2 : k.length < 2 ^ 32) :
    loadEntries (n + 1) (entryBytes (k, v) ++ rest) acc
      = .error (.corrupted "loading entry key") := by
  have hb : entryBytes (k, v) ++ rest
      = leN 4 k.length ++ (k ++ (leN 4 v.length ++ (v ++ rest))) := by
    simp [entryBytes, List.append_assoc]
  rw [hb]
  have h1 : readLEN 4 (leN 4 k.length ++ (k ++ (leN 4 v.length ++ (v ++ rest))))
      = k.length := by
    rw [readLEN_leN]
    exact Nat.mod_eq_of_lt (by norm_num; omega)
  have hc1 : ¬((leN 4 k.length ++ (k ++ (leN 4 v.length ++ (v ++ rest)))).length < 4) := by
    simp only [List.length_append, leN_length]
    omega
  simp only [loadEntries, h1, hc1, if_false, hk, if_true]

/-- The data section written for a tree holding one oversized key loads
back as `Corrupted`. -/
theorem loadTree_single_big_key (k v : List Nat)
    (hk : 64 * 1024 < k.length) (hk2 : k.length < 2 ^ 32) :
    loadTree 1 (persistDataBytes [(k, v)]) = .error (.corrupted "loading entry key") := by
  have hbytes : persistDataBytes [(k, v)] = leN 8 1 ++ (entryBytes (k, v) ++ []) := by
    simp [persistDataBytes, entriesBytes, BTree.len]
  rw [hbytes]
  have hL : ¬((leN 8 1 ++ (entryBytes (k, v) ++ [])).length < 8) := by
    simp only [List.length_append, leN_length]
    omega
  have hR : readLEN 8 (leN 8 1 ++ (entryBytes (k, v) ++ [])) = 1 := by
    rw [readLEN_leN]
    norm_num
  have hD : (leN 8 1 ++ (entryBytes (k, v) ++ [])).drop 8 = entryBytes (k, v) ++ [] :=
    leN_append_drop _ _ _
  have hE : loadEntries 1 (entryBytes (k, v) ++ []) BTree.new
      = .error (.corrupted "loading entry key") :=
    loadEntries_big_key 0 k v [] BTree.new hk hk2
  simp only [loadTree, hL, hR, hD, hE, if_false, one_ne_zero]
  norm_num

/-- C2 counterexample: committing a single put with a 64 KiB + 1 key
succeeds, `persist_tree` writes it, but reopening fails with
`Corrupted` instead of returning the same entries. -/
theorem claim2_counterexample :
    (writeTxCommit BTree.new (stageOps [TxOp.put (List.replicate 65537 0) [1]]) true).1
      = .ok () ∧
    (persistMeta ⟨MAGIC, VERSION, 4096, 0, 0, 0, 0, 0, 0⟩
      (writeTxCommit BTree.new (stageOps [TxOp.put (List.replicate 65537 0) [1]]) true).2).root
      = 1 ∧
    loadTree 1
      (persistDataBytes
        (writeTxCommit BTree.new (stageOps [TxOp.put (List.replicate 65537 0) [1]]) true).2)
      = .error (.corrupted "loading entry key") := by
  have hT : (writeTxCommit BTree.new (stageOps [TxOp.put (List.replicate 65537 0) [1]]) true).2
      = [(List.replicate 65537 0, [1])] := rfl
  refine ⟨rfl, rfl, ?_⟩
  rw [hT]
  exact loadTree_single_big_key _ _
    (by rw [List.length_replicate]; norm_num)
    (by rw [List.length_replicate]; norm_num)

/-- C2 witness at a concrete small database state. -/
theorem claim2_witness :
    BTree.Sorted [([1], [2])] ∧
    loadTree (persistMeta ⟨MAGIC, VERSION, 4096, 0, 0, 0, 0, 0, 0⟩ [([1], [2])]).root
        (persistDataBytes [([1], [2])] ++ [7]) =
      .ok ([([1], [2])], 2 * PAGE_SIZE + 8 + (entriesBytes [([1], [2])]).length,
        BTree.len [([1], [2])]) := by
  refine ⟨by simp [BTree.Sorted], ?_⟩
  exact claim2_durability_roundtrip _ _ _ (by simp [BTree.Sorted])
    (by intro e he; simp at he; simp [he]) (by simp [BTree.len])

/-- C10: neither `WriteTx::put` nor `WriteTx::commit` enforces the entry
size limits: a put of a key longer than 64 KiB commits fine and is
readable, yet the database file written for it fails to load with
`Corrupted` — the limits are enforced only by `load_tree`. -/
theorem claim10_size_limits_enforced_only_on_load (key value : List Nat)
    (hk : 64 * 1024 < key.length) (hk2 : key.length < 2 ^ 32) :
    (writeTxCommit BTree.new (stageOps [TxOp.put key value]) true).1 = .ok () ∧
    readTxGet (writeTxCommit BTree.new (stageOps [TxOp.put key value]) true).2 key
      = some value ∧
    loadTree 1
      (persistDataBytes (writeTxCommit BTree.new (stageOps [TxOp.put key value]) true).2)
      = .error (.corrupted "loading entry key") := by
  have hT : (writeTxCommit BTree.new (stageOps [TxOp.put key value]) true).2
      = [(key, value)] := rfl
  refine ⟨rfl, ?_, ?_⟩
  · rw [hT]
    simp [readTxGet, BTree.get]
  · rw [hT]
    exact loadTree_single_big_key key value hk hk2

/-- C10 witness at a concrete oversized key. -/
theorem claim10_witness :
    64 * 1024 < (List.replicate 65537 3).length ∧
    ((writeTxCommit BTree.new (stageOps [TxOp.put (List.replicate 65537 3) [5]]) true).1
        = .ok () ∧
      readTxGet (writeTxCommit BTree.new
          (stageOps [TxOp.put (List.replicate 65537 3) [5]]) true).2
          (List.replicate 65537 3)
        = some [5] ∧
      loadTree 1
        (persistDataBytes (writeTxCommit BTree.new
          (stageOps [TxOp.put (List.replicate 65537 3) [5]]) true).2)
        = .error (.corrupted "loading entry key")) :=
  ⟨by rw [List.length_replicate]; norm_num,
    claim10_size_limits_enforced_only_on_load (List.replicate 65537 3) [5]
      (by rw [List.length_replicate]; norm_num)
      (by rw [List.length_replicate]; norm_num)⟩

/-- C4: with both meta slots parsed, `load_meta` picks, among the slots
whose `validate()` passes, the one with the largest txid (slot 0 on a
tie); exactly one valid slot is picked as-is; if both fail validation
the open fails with `BothMetaPagesInvalid`. -/
theorem claim4_meta_slot_selection (m0 m1 : Meta) :
    (m0.validate = false → m1.validate = false →
      loadMeta (some m0) (some m1) = .error .bothMetaPagesInvalid) ∧
    (m0.validate = true → m1.validate = false →
      loadMeta (some m0) (some m1) = .ok m0) ∧
    (m0.validate = false → m1.validate = true →
      loadMeta (some m0) (some m1) = .ok m1) ∧
    (m0.validate = true → m1.validate = true →
      loadMeta (some m0) (some m1) = .ok (if m0.txid < m1.txid then m1 else m0) ∧
      m0.txid ≤ (if m0.txid < m1.txid then m1 else m0).txid ∧
      m1.txid ≤ (if m0.txid < m1.txid then m1 else m0).txid) := by
  refine ⟨?_, ?_, ?_, ?_⟩
  · intro h0 h1
    simp [loadMeta, h0, h1]
  · intro h0 h1
    simp [loadMeta, h0, h1]
  · intro h0 h1
    simp [loadMeta, h0, h1]
  · intro h0 h1
    refine ⟨by simp [loadMeta, h0, h1, apply_ite Except.ok], ?_, ?_⟩
    · by_cases h : m0.txid < m1.txid
      · simp [h]
        omega
      · simp [h]
    · by_cases h : m0.txid < m1.txid
      · simp [h]
      · simp [h]
        omega

/-- C4 witness: two concrete valid slots with txids 5 and 7; slot 1
wins. -/
theorem claim4_witness :
    loadMeta
      (some ⟨0x54484E44, 2, 4096, 5, 1, 0, 0, 0,
        crc32 (leN 4 0x54484E44 ++ leN 4 2 ++ leN 4 4096 ++ leN 8 5 ++ leN 8 1 ++
          leN 8 0 ++ leN 8 0 ++ leN 16 0)⟩)
      (some ⟨0x54484E44, 2, 4096, 7, 1, 0, 0, 0,
        crc32 (leN 4 0x54484E44 ++ leN 4 2 ++ leN 4 4096 ++ leN 8 7 ++ leN 8 1 ++
          leN 8 0 ++ leN 8 0 ++ leN 16 0)⟩)
      = .ok ⟨0x54484E44, 2, 4096, 7, 1, 0, 0, 0,
        crc32 (leN 4 0x54484E44 ++ leN 4 2 ++ leN 4 4096 ++ leN 8 7 ++ leN 8 1 ++
          leN 8 0 ++ leN 8 0 ++ leN 16 0)⟩ := by
  have hv0 : Meta.validate ⟨0x54484E44, 2, 4096, 5, 1, 0, 0, 0,
      crc32 (leN 4 0x54484E44 ++ leN 4 2 ++ leN 4 4096 ++ leN 8 5 ++ leN 8 1 ++
        leN 8 0 ++ leN 8 0 ++ leN 16 0)⟩ = true := by
    simp [Meta.validate, Meta.payloadBytes, MAGIC, VERSION, pageSizeValid]
  have hv1 : Meta.validate ⟨0x54484E44, 2, 4096, 7, 1, 0, 0, 0,
      crc32 (leN 4 0x54484E44 ++ leN 4 2 ++ leN 4 4096 ++ leN 8 7 ++ leN 8 1 ++
        leN 8 0 ++ leN 8 0 ++ leN 16 0)⟩ = true := by
    simp [Meta.validate, Meta.payloadBytes, MAGIC, VERSION, pageSizeValid]
  have h := ((claim4_meta_slot_selection _ _).2.2.2 hv0 hv1).1
  simpa using h

/-! ### CRC32 bounds -/

theorem crcRound_lt {c : Nat} (h : c < 2 ^ 32) : crcRound c < 2 ^ 32 := by
  unfold crcRound
  have h2 : c / 2 < 2 ^ 32 := Nat.lt_of_le_of_lt (Nat.div_le_self c 2) h
  by_cases hp : c % 2 = 1
  · simp only [hp, if_pos rfl]
    exact Nat.xor_lt_two_pow h2 (by norm_num [CRC_POLY])
  · simp only [if_neg hp]
    exact h2

theorem crcRounds_lt (n : Nat) {c : Nat} (h : c < 2 ^ 32) :
    crcRounds n c < 2 ^ 32 := by
  induction n generalizing c with
  | zero => exact h
  | succ n ih => exact ih (crcRound_lt h)

theorem crc32_lt (data : List Nat) : crc32 data < 2 ^ 32 := by
  unfold crc32
  have hfold : ∀ l : List Nat, ∀ acc : Nat, acc < 2 ^ 32 →
      l.foldl (fun crc b => crc32Table ((crc ^^^ b) % 256) ^^^ (crc / 256)) acc < 2 ^ 32 := by
    intro l
    induction l with
    | nil => intro acc h; exact h
    | cons b bs ih =>
      intro acc h
      refine ih _ ?_
      have h1 : crc32Table ((acc ^^^ b) % 256) < 2 ^ 32 := by
        refine crcRounds_lt 8 ?_
        calc (acc ^^^ b) % 256 < 256 := Nat.mod_lt _ (by norm_num)
          _ < 2 ^ 32 := by norm_num
      have h2 : acc / 256 < 2 ^ 32 := Nat.lt_of_le_of_lt (Nat.div_le_self _ _) h
      exact Nat.xor_lt_two_pow h1 h2
  exact Nat.xor_lt_two_pow (hfold data 0xFFFFFFFF (by norm_num)) (by norm_num)

theorem overflowChecksum_lt (data : List Nat) (hb : ∀ b ∈ data, b < 256) :
    overflowChecksum data < 2 ^ 32 := by
  unfold overflowChecksum
  have hfold : ∀ l : List Nat, (∀ b ∈ l, b < 256) → ∀ acc : Nat, acc < 2 ^ 32 →
      l.foldl (fun crc b => crcRounds 8 (crc ^^^ b)) acc < 2 ^ 32 := by
    intro l
    induction l with
    | nil => intro _ acc h; exact h
    | cons b bs ih =>
      intro hl acc h
      refine ih (fun x hx => hl x (List.mem_cons_of_mem _ hx)) _ ?_
      refine crcRounds_lt 8 (Nat.xor_lt_two_pow h ?_)
      calc b < 256 := hl b (List.mem_cons_self _ _)
        _ < 2 ^ 32 := by norm_num
  exact Nat.xor_lt_two_pow (hfold data hb 0xFFFFFFFF (by norm_num)) (by norm_num)

/-! ### WAL record encode/decode (C6) -/

theorem recordType_bounds (r : WalRecord) :
    1 ≤ r.recordType ∧ r.recordType ≤ 6 := by
  cases r <;> simp [WalRecord.recordType]

theorem encodePayload_length_le (r : WalRecord) (h : r.sizeOk) :
    r.encodePayload.length ≤ MAX_RECORD_PAYLOAD := by
  cases r with
  | put k v =>
    obtain ⟨h1, h2⟩ := h
    simp only [WalRecord.encodePayload, List.length_append, leN_length]
    unfold MAX_RECORD_PAYLOAD at h2 ⊢
    omega
  | delete k =>
    simp only [WalRecord.encodePayload, List.length_append, leN_length]
    unfold WalRecord.sizeOk MAX_KEY_SIZE at h
    unfold MAX_RECORD_PAYLOAD
    omega
  | txBegin t => simp [WalRecord.encodePayload, leN_length, MAX_RECORD_PAYLOAD]
  | txCommit t => simp [WalRecord.encodePayload, leN_length, MAX_RECORD_PAYLOAD]
  | txAbort t => simp [WalRecord.encodePayload, leN_length, MAX_RECORD_PAYLOAD]
  | checkpoint l => simp [WalRecord.encodePayload, leN_length, MAX_RECORD_PAYLOAD]

theorem readLEN_leN_self (k n : Nat) : readLEN k (leN k n) = n % 256 ^ k := by
  have h := readLEN_leN k n []
  simpa using h

theorem decodePayload_put (k v : List Nat) (hk : k.length ≤ MAX_KEY_SIZE)
    (hv : 8 + k.length + v.length ≤ MAX_RECORD_PAYLOAD) :
    WalRecord.decodePayload 1 (WalRecord.encodePayload (.put k v)) =
      .ok (.put k v) := by
  have hP : WalRecord.encodePayload (.put k v)
      = leN 4 k.length ++ (k ++ (leN 4 v.length ++ v)) := by
    simp [WalRecord.encodePayload, List.append_assoc]
  rw [WalRecord.decodePayload, hP]
  have hk32 : k.length < 2 ^ 32 := by
    unfold MAX_KEY_SIZE at hk
    omega
  have hv32 : v.length < 2 ^ 32 := by
    unfold MAX_RECORD_PAYLOAD at hv
    omega
  have h1 : readLEN 4 (leN 4 k.length ++ (k ++ (leN 4 v.length ++ v))) = k.length := by
    rw [readLEN_leN]
    exact Nat.mod_eq_of_lt (by norm_num; omega)
  have h2 : (leN 4 k.length ++ (k ++ (leN 4 v.length ++ v))).drop 4
      = k ++ (leN 4 v.length ++ v) := leN_append_drop _ _ _
  have h3 : (k ++ (leN 4 v.length ++ v)).take k.length = k := List.take_left _ _
  have h4 : (leN 4 k.length ++ (k ++ (leN 4 v.length ++ v))).drop (4 + k.length)
      = leN 4 v.length ++ v := by
    rw [← List.drop_drop, h2, List.drop_left]
  have h5 : readLEN 4 (leN 4 v.length ++ v) = v.length := by
    rw [readLEN_leN]
    exact Nat.mod_eq_of_lt (by norm_num; omega)
  have h6 : (leN 4 k.length ++ (k ++ (leN 4 v.length ++ v))).drop (4 + k.length + 4)
      = v := by
    rw [← List.drop_drop, h4, leN_append_drop]
  have h7 : List.take v.length v = v := List.take_length ..
  have hc1 : ¬((leN 4 k.length ++ (k ++ (leN 4 v.length ++ v))).length < 8) := by
    simp only [List.length_append, leN_length]
    omega
  have hc2 : ¬(MAX_KEY_SIZE < k.length) := by omega
  have hc3 : ¬((leN 4 k.length ++ (k ++ (leN 4 v.length ++ v))).length
      < 4 + k.length + 4) := by
    simp only [List.length_append, leN_length]
    omega
  have hc4 : ¬((leN 4 k.length ++ (k ++ (leN 4 v.length ++ v))).length
      < 4 + k.length + 4 + v.length) := by
    simp only [List.length_append, leN_length]
    omega
  simp only [h1, h2, h3, h4, h5, h6, h7, hc1, hc2, hc3, hc4, if_false]
  simp

theorem decodePayload_delete (k : List Nat) (hk : k.length ≤ MAX_KEY_SIZE) :
    WalRecord.decodePayload 2 (WalRecord.encodePayload (.delete k)) =
      .ok (.delete k) := by
  have hP : WalRecord.encodePayload (.delete k) = leN 4 k.length ++ k := rfl
  rw [WalRecord.decodePayload, hP]
  have hk32 : k.length < 2 ^ 32 := by
    unfold MAX_KEY_SIZE at hk
    omega
  have h1 : readLEN 4 (leN 4 k.length ++ k) = k.length := by
    rw [readLEN_leN]
    exact Nat.mod_eq_of_lt (by norm_num; omega)
  have h2 : (leN 4 k.length ++ k).drop 4 = k := leN_append_drop _ _ _
  have h3 : List.take k.length k = k := List.take_length ..
  have hc1 : ¬((leN 4 k.length ++ k).length < 4) := by
    simp only [List.length_append, leN_length]
    omega
  have hc2 : ¬(MAX_KEY_SIZE < k.length) := by omega
  have hc3 : ¬((leN 4 k.length ++ k).length < 4 + k.length) := by
    simp only [List.length_append, leN_length]
    omega
  norm_num only
  simp only [h1, h2, h3, hc1, hc2, hc3, if_false]
  simp

theorem decodePayload_u64 (c : Nat) (t : Nat) (ht : t < 2 ^ 64)
    (hc : 3 ≤ c ∧ c ≤ 6) :
    WalRecord.decodePayload c (leN 8 t) =
      .ok (if c = 3 then .txBegin t else if c = 4 then .txCommit t
        else if c = 5 then .txAbort t else .checkpoint t) := by
  have h1 : readLEN 8 (leN 8 t) = t := by
    rw [readLEN_leN_self]
    exact Nat.mod_eq_of_lt (by norm_num; omega)
  have hc1 : ¬((leN 8 t).length < 8) := by simp [leN_length]
  obtain ⟨hc3, hc6⟩ := hc
  interval_cases c <;>
    simp only [WalRecord.decodePayload, h1, hc1, if_false] <;> norm_num

theorem decodePayload_encodePayload (r : WalRecord) (h : r.sizeOk) :
    WalRecord.decodePayload r.recordType r.encodePayload = .ok r := by
  cases r with
  | put k v => exact decodePayload_put k v h.1 h.2
  | delete k => exact decodePayload_delete k h
  | txBegin t =>
    have := decodePayload_u64 3 t h (by norm_num)
    simpa [WalRecord.recordType, WalRecord.encodePayload] using this
  | txCommit t =>
    have := decodePayload_u64 4 t h (by norm_num)
    simpa [WalRecord.recordType, WalRecord.encodePayload] using this
  | txAbort t =>
    have := decodePayload_u64 5 t h (by norm_num)
    simpa [WalRecord.recordType, WalRecord.encodePayload] using this
  | checkpoint l =>
    have := decodePayload_u64 6 l h (by norm_num)
    simpa [WalRecord.recordType, WalRecord.encodePayload] using this

/-- Decoding a well-formed encoded frame reduces to decoding its
payload, consuming exactly the frame. -/
theorem decode_encoded (rt : Nat) (P : List Nat) (hrt1 : 1 ≤ rt) (hrt6 : rt ≤ 6)
    (hP : P.length ≤ MAX_RECORD_PAYLOAD) :
    WalRecord.decode (leN 4 (9 + P.length) ++ [rt] ++ leN 4 (crc32 (rt :: P)) ++ P)
      = match WalRecord.decodePayload rt P with
        | .ok r => .ok (r, 9 + P.length)
        | .error e => .error e := by
  have hD : leN 4 (9 + P.length) ++ [rt] ++ leN 4 (crc32 (rt :: P)) ++ P
      = leN 4 (9 + P.length) ++ (rt :: (leN 4 (crc32 (rt :: P)) ++ P)) := by
    simp [List.append_assoc]
  rw [hD]
  have hP32 : 9 + P.length < 2 ^ 32 := by
    unfold MAX_RECORD_PAYLOAD at hP
    omega
  have hlen : (leN 4 (9 + P.length) ++ (rt :: (leN 4 (crc32 (rt :: P)) ++ P))).length
      = 9 + P.length := by
    simp only [List.length_append, leN_length, List.length_cons]
    omega
  have h1 : readLEN 4 (leN 4 (9 + P.length) ++ (rt :: (leN 4 (crc32 (rt :: P)) ++ P)))
      = 9 + P.length := by
    rw [readLEN_leN]
    exact Nat.mod_eq_of_lt (by norm_num; omega)
  have h2 : ((leN 4 (9 + P.length) ++ (rt :: (leN 4 (crc32 (rt :: P)) ++ P))).drop 4).headD 0
      = rt := by
    rw [leN_append_drop]
    rfl
  have h3 : (leN 4 (9 + P.length) ++ (rt :: (leN 4 (crc32 (rt :: P)) ++ P))).drop 5
      = leN 4 (crc32 (rt :: P)) ++ P := rfl
  have h4 : readLEN 4 (leN 4 (crc32 (rt :: P)) ++ P) = crc32 (rt :: P) := by
    rw [readLEN_leN]
    exact Nat.mod_eq_of_lt (crc32_lt _)
  have h5 : ((leN 4 (9 + P.length) ++ (rt :: (leN 4 (crc32 (rt :: P)) ++ P))).take
        (9 + P.length)).drop 9 = P := by
    rw [List.take_of_length_le (le_of_eq hlen)]
    rfl
  have hc1 : ¬((leN 4 (9 + P.length) ++ (rt :: (leN 4 (crc32 (rt :: P)) ++ P))).length
      < 9) := by
    rw [hlen]
    omega
  have hc2 : ¬(9 + P.length < 9) := by omega
  have hc3 : ¬((leN 4 (9 + P.length) ++ (rt :: (leN 4 (crc32 (rt :: P)) ++ P))).length
      < 9 + P.length) := by
    rw [hlen]
    omega
  have hc4 : ¬(MAX_RECORD_PAYLOAD < 9 + P.length - 9) := by
    unfold MAX_RECORD_PAYLOAD at hP ⊢
    omega
  have hc5 : (1 ≤ rt && rt ≤ 6) = true := by
    simp [hrt1, hrt6]
  have hc6 : ¬(crc32 (rt :: P) ≠ crc32 (rt :: P)) := fun h => h rfl
  simp only [WalRecord.decode, RECORD_HEADER_SIZE, h1, h2, h3, h4, h5, hc1, hc2,
    hc3, hc4, hc5, hc6, if_false, Bool.not_true, Bool.false_eq_true, ite_false,
    ite_true]

/-- C6 (amended): for every WAL record within the representation bounds
(key ≤ 64 KiB, payload ≤ 64 MiB, u64 fields in range),
`decode(encode(r))` returns exactly `r` with `encode(r).len()` bytes
consumed; `encode` lays the record out as
`[total_len:u32][type:u8][crc32:u32][payload]` with the CRC32 covering
the type byte plus payload; and a decode can only succeed when the
stored CRC equals the one recomputed over type byte plus payload. -/
theorem claim6_wal_record_codec (r : WalRecord) (h : r.sizeOk) :
    WalRecord.decode r.encode = .ok (r, r.encode.length) ∧
    r.encode = leN 4 (9 + r.encodePayload.length) ++ [r.recordType] ++
      leN 4 (crc32 (r.recordType :: r.encodePayload)) ++ r.encodePayload ∧
    (∀ data : List Nat, ∀ rec : WalRecord, ∀ n : Nat,
      WalRecord.decode data = .ok (rec, n) →
      readLEN 4 (data.drop 5) =
        crc32 (((data.drop 4).headD 0) :: ((data.take (readLEN 4 data)).drop 9))) := by
  have hdef : r.encode = leN 4 (9 + r.encodePayload.length) ++ [r.recordType] ++
      leN 4 (crc32 (r.recordType :: r.encodePayload)) ++ r.encodePayload := by
    simp [WalRecord.encode, RECORD_HEADER_SIZE]
  refine ⟨?_, hdef, ?_⟩
  · have hlen : r.encode.length = 9 + r.encodePayload.length := by
      rw [hdef]
      simp only [List.length_append, leN_length, List.length_cons, List.length_nil]
      try omega
    rw [hlen, hdef, decode_encoded r.recordType r.encodePayload
      (recordType_bounds r).1 (recordType_bounds r).2 (encodePayload_length_le r h),
      decodePayload_encodePayload r h]
  · intro data rec n hd
    simp only [WalRecord.decode] at hd
    split_ifs at hd with h1 h2 h3 h4 h5 h6
    push_neg at h6
    exact h6.symm

theorem decodePayload_put_oversized (k v : List Nat)
    (hk : MAX_KEY_SIZE < k.length) (hk32 : k.length < 2 ^ 32) :
    WalRecord.decodePayload 1 (WalRecord.encodePayload (.put k v)) =
      .error (.walRecordInvalid "key size exceeds maximum") := by
  have hP : WalRecord.encodePayload (.put k v)
      = leN 4 k.length ++ (k ++ (leN 4 v.length ++ v)) := by
    simp [WalRecord.encodePayload, List.append_assoc]
  rw [WalRecord.decodePayload, hP]
  have h1 : readLEN 4 (leN 4 k.length ++ (k ++ (leN 4 v.length ++ v))) = k.length := by
    rw [readLEN_leN]
    exact Nat.mod_eq_of_lt (by norm_num; omega)
  have hc1 : ¬((leN 4 k.length ++ (k ++ (leN 4 v.length ++ v))).length < 8) := by
    simp only [List.length_append, leN_length]
    unfold MAX_KEY_SIZE at hk
    omega
  simp only [h1, hc1, hk, if_false, if_true]

/-- A `Put` whose key exceeds 64 KiB (but whose payload is within the
frame bound) encodes fine, yet its own decode rejects it. -/
theorem decode_encode_put_oversized (k v : List Nat)
    (hk : MAX_KEY_SIZE < k.length) (hk32 : k.length < 2 ^ 32)
    (hP : 8 + k.length + v.length ≤ MAX_RECORD_PAYLOAD) :
    WalRecord.decode (WalRecord.encode (.put k v)) =
      .error (.walRecordInvalid "key size exceeds maximum") := by
  have hdef : WalRecord.encode (.put k v) =
      leN 4 (9 + (WalRecord.encodePayload (.put k v)).length) ++ [1] ++
        leN 4 (crc32 (1 :: WalRecord.encodePayload (.put k v))) ++
        WalRecord.encodePayload (.put k v) := by
    simp [WalRecord.encode, WalRecord.recordType, RECORD_HEADER_SIZE]
  have hPlen : (WalRecord.encodePayload (.put k v)).length ≤ MAX_RECORD_PAYLOAD := by
    simp only [WalRecord.encodePayload, List.length_append, leN_length]
    omega
  rw [hdef, decode_encoded 1 _ (by norm_num) (by norm_num) hPlen,
    decodePayload_put_oversized k v hk hk32]

/-- C6 counterexample: a `Put` with a 64 KiB + 1 key encodes but does
not decode back, so `decode(encode(r))` does not succeed for every
record. -/
theorem claim6_counterexample :
    WalRecord.decode (WalRecord.encode (.put (List.replicate 65537 0) []))
      = .error (.walRecordInvalid "key size exceeds maximum") :=
  decode_encode_put_oversized (List.replicate 65537 0) []
    (by rw [List.length_replicate]; norm_num [MAX_KEY_SIZE])
    (by rw [List.length_replicate]; norm_num)
    (by rw [List.length_replicate]; norm_num [MAX_RECORD_PAYLOAD])

/-- C6 witness at a concrete small record. -/
theorem claim6_witness :
    WalRecord.sizeOk (WalRecord.put [1] [2]) ∧
    WalRecord.decode (WalRecord.encode (.put [1] [2])) =
      .ok (.put [1] [2], (WalRecord.encode (.put [1] [2])).length) := by
  have h : WalRecord.sizeOk (WalRecord.put [1] [2]) := by
    constructor
    · norm_num [MAX_KEY_SIZE]
    · norm_num [MAX_RECORD_PAYLOAD]
  exact ⟨h, (claim6_wal_record_codec (.put [1] [2]) h).1⟩

/-! ### Bloom filter: no false negatives (C7) -/

theorem hasBit_bloomSetBit_self (bts : List Nat) (idx : Nat)
    (hlt : idx / 64 < bts.length) :
    BloomFilter.hasBit (bloomSetBit bts idx) idx := by
  unfold BloomFilter.hasBit bloomSetBit
  rw [List.getD_eq_getElem?_getD, List.getElem?_set_self hlt]
  show ((bts.getD (idx / 64) 0 ||| 1 <<< (idx % 64))).testBit (idx % 64)
  rw [Nat.testBit_or, Nat.shiftLeft_eq, one_mul, Nat.testBit_two_pow_self]
  simp

theorem hasBit_bloomSetBit_mono (bts : List Nat) (j idx : Nat)
    (h : BloomFilter.hasBit bts idx) :
    BloomFilter.hasBit (bloomSetBit bts j) idx := by
  unfold BloomFilter.hasBit bloomSetBit at *
  by_cases hj : j / 64 = idx / 64
  · rw [hj]
    by_cases hlen : idx / 64 < bts.length
    · rw [List.getD_eq_getElem?_getD, List.getElem?_set_self hlen]
      show ((bts.getD (idx / 64) 0 ||| 1 <<< (j % 64))).testBit (idx % 64)
      rw [Nat.testBit_or, h]
      simp
    · rw [List.set_eq_of_length_le (by omega)]
      exact h
  · rw [List.getD_eq_getElem?_getD, List.getElem?_set_ne hj,
      ← List.getD_eq_getElem?_getD]
    exact h

theorem bloomSetBit_length (bts : List Nat) (idx : Nat) :
    (bloomSetBit bts idx).length = bts.length := List.length_set ..

theorem foldl_bloomSetBit_length (F : Nat → Nat) (l : List Nat) (bts : List Nat) :
    (l.foldl (fun b i => bloomSetBit b (F i)) bts).length = bts.length := by
  induction l generalizing bts with
  | nil => rfl
  | cons j l ih => rw [List.foldl_cons, ih, bloomSetBit_length]

theorem foldl_bloomSetBit_mono (F : Nat → Nat) (l : List Nat) (bts : List Nat)
    (idx : Nat) (h : BloomFilter.hasBit bts idx) :
    BloomFilter.hasBit (l.foldl (fun b i => bloomSetBit b (F i)) bts) idx := by
  induction l generalizing bts with
  | nil => exact h
  | cons j l ih => exact ih _ (hasBit_bloomSetBit_mono _ _ _ h)

theorem foldl_bloomSetBit_sets (F : Nat → Nat) (l : List Nat) (bts : List Nat)
    (i : Nat) (hi : i ∈ l) (hlen : ∀ j ∈ l, F j / 64 < bts.length) :
    BloomFilter.hasBit (l.foldl (fun b i => bloomSetBit b (F i)) bts) (F i) := by
  induction l generalizing bts with
  | nil => cases hi
  | cons j l ih =>
    rw [List.foldl_cons]
    rcases List.mem_cons.mp hi with rfl | hi2
    · exact foldl_bloomSetBit_mono F l _ _
        (hasBit_bloomSetBit_self bts (F i) (hlen i (List.mem_cons_self _ _)))
    · refine ih _ hi2 ?_
      intro j2 hj2
      rw [bloomSetBit_length]
      exact hlen j2 (List.mem_cons_of_mem _ hj2)

theorem BloomFilter.insert_num_bits (f : BloomFilter) (k : List Nat) :
    (f.insert k).num_bits = f.num_bits := rfl

theorem BloomFilter.insert_num_hashes (f : BloomFilter) (k : List Nat) :
    (f.insert k).num_hashes = f.num_hashes := rfl

theorem BloomFilter.insert_bits_length (f : BloomFilter) (k : List Nat) :
    (f.insert k).bits.length = f.bits.length :=
  foldl_bloomSetBit_length _ _ _

theorem BloomFilter.insert_wf {f : BloomFilter} (hwf : f.wf) (k : List Nat) :
    (f.insert k).wf := by
  obtain ⟨h1, h2⟩ := hwf
  exact ⟨by rw [BloomFilter.insert_num_bits, BloomFilter.insert_bits_length, h1],
    by rw [BloomFilter.insert_num_bits]; exact h2⟩

theorem BloomFilter.insert_hasBit_mono (f : BloomFilter) (k : List Nat)
    (idx : Nat) (h : BloomFilter.hasBit f.bits idx) :
    BloomFilter.hasBit (f.insert k).bits idx :=
  foldl_bloomSetBit_mono _ _ _ _ h

theorem BloomFilter.getBitIndex_lt (f : BloomFilter) (hwf : f.wf) (h1 h2 i : Nat) :
    f.getBitIndex h1 h2 i / 64 < f.bits.length := by
  obtain ⟨hb, hpos⟩ := hwf
  have hlt : f.getBitIndex h1 h2 i < f.num_bits :=
    Nat.mod_lt _ hpos
  rw [hb] at hlt
  omega

theorem BloomFilter.insert_sets (f : BloomFilter) (hwf : f.wf) (k : List Nat)
    (i : Nat) (hi : i < f.num_hashes) :
    BloomFilter.hasBit (f.insert k).bits
      (f.getBitIndex (BloomFilter.hashPair k).1 (BloomFilter.hashPair k).2 i) := by
  refine foldl_bloomSetBit_sets _ _ _ _ (List.mem_range.mpr hi) ?_
  intro j _
  exact BloomFilter.getBitIndex_lt f hwf _ _ _

theorem and_two_pow_ne_zero_iff (x b : Nat) : (x &&& 2 ^ b ≠ 0) ↔ x.testBit b := by
  rw [Nat.and_two_pow]
  rcases h : x.testBit b <;> simp [h]

theorem BloomFilter.mayContain_iff (f : BloomFilter) (k : List Nat) :
    f.mayContain k = true ↔
      ∀ i < f.num_hashes,
        BloomFilter.hasBit f.bits
          (f.getBitIndex (BloomFilter.hashPair k).1 (BloomFilter.hashPair k).2 i) := by
  unfold BloomFilter.mayContain
  rw [List.all_eq_true]
  constructor
  · intro h i hi
    have h2 := h i (List.mem_range.mpr hi)
    simp only [bne_iff_ne, ne_eq, Nat.shiftLeft_eq, one_mul] at h2
    exact (and_two_pow_ne_zero_iff _ _).mp h2
  · intro h i hi
    have h2 := h i (List.mem_range.mp hi)
    simp only [bne_iff_ne, ne_eq, Nat.shiftLeft_eq, one_mul]
    exact (and_two_pow_ne_zero_iff _ _).mpr h2

theorem foldl_insert_num_bits (keys : List (List Nat)) (f : BloomFilter) :
    (keys.foldl BloomFilter.insert f).num_bits = f.num_bits := by
  induction keys generalizing f with
  | nil => rfl
  | cons k0 keys ih => rw [List.foldl_cons, ih, BloomFilter.insert_num_bits]

theorem foldl_insert_num_hashes (keys : List (List Nat)) (f : BloomFilter) :
    (keys.foldl BloomFilter.insert f).num_hashes = f.num_hashes := by
  induction keys generalizing f with
  | nil => rfl
  | cons k0 keys ih => rw [List.foldl_cons, ih, BloomFilter.insert_num_hashes]

theorem foldl_insert_hasBit_mono (keys : List (List Nat)) (f : BloomFilter)
    (idx : Nat) (h : BloomFilter.hasBit f.bits idx) :
    BloomFilter.hasBit ((keys.foldl BloomFilter.insert f).bits) idx := by
  induction keys generalizing f with
  | nil => exact h
  | cons k0 keys ih =>
    rw [List.foldl_cons]
    exact ih _ (BloomFilter.insert_hasBit_mono f k0 idx h)

/-- C7: for every bloom filter with the structure `BloomFilter::new`
guarantees, every finite insertion sequence, and every key in that
sequence, `may_contain` returns `true` — no false negatives. -/
theorem claim7_bloom_no_false_negatives (f : BloomFilter) (hwf : f.wf)
    (keys : List (List Nat)) (k : List Nat) (hk : k ∈ keys) :
    (keys.foldl BloomFilter.insert f).mayContain k = true := by
  induction keys generalizing f with
  | nil => cases hk
  | cons k0 keys ih =>
    rw [List.foldl_cons]
    rcases List.mem_cons.mp hk with rfl | hk2
    · rw [BloomFilter.mayContain_iff]
      intro i hi
      rw [foldl_insert_num_hashes, BloomFilter.insert_num_hashes] at hi
      have hidx : (keys.foldl BloomFilter.insert (f.insert k)).getBitIndex
            (BloomFilter.hashPair k).1 (BloomFilter.hashPair k).2 i
          = f.getBitIndex (BloomFilter.hashPair k).1 (BloomFilter.hashPair k).2 i := by
        unfold BloomFilter.getBitIndex
        rw [foldl_insert_num_bits, BloomFilter.insert_num_bits]
      rw [hidx]
      exact foldl_insert_hasBit_mono keys _ _ (BloomFilter.insert_sets f hwf k i hi)
    · exact ih (f.insert k0) (BloomFilter.insert_wf hwf k0) hk2

/-- C7 witness: a tiny filter (64 bits, 2 hashes) and a two-key
insertion sequence. -/
theorem claim7_witness :
    BloomFilter.wf ⟨[0], 2, 64, 0⟩ ∧ [1, 2] ∈ [[3], [1, 2]] ∧
    (([[3], [1, 2]] : List (List Nat)).foldl BloomFilter.insert
      ⟨[0], 2, 64, 0⟩).mayContain [1, 2] = true :=
  ⟨⟨by norm_num, by norm_num⟩, by norm_num,
    claim7_bloom_no_false_negatives ⟨[0], 2, 64, 0⟩ ⟨by norm_num, by norm_num⟩
      [[3], [1, 2]] [1, 2] (by norm_num)⟩

/-- C8: the claim fails on the code.  In the startup state (no previous
checkpoint, `0 < records_since_checkpoint < min_records`) the
`else if` branch of `should_checkpoint` returns early on the record
count alone, so the WAL-growth trigger — satisfied on its own here,
as the tail check confirms — is ignored and the function returns
`false`. -/
theorem claim8_wal_growth_trigger_masked :
    shouldCheckpoint ⟨⟨3600, 100, 10⟩, 0, false, 1, 0⟩ 0 100 = false ∧
    (⟨⟨3600, 100, 10⟩, 0, false, 1, 0⟩ : CheckpointState).config.wal_threshold ≤
      100 - (⟨⟨3600, 100, 10⟩, 0, false, 1, 0⟩ : CheckpointState).wal_size_at_checkpoint ∧
    shouldCheckpointTail ⟨⟨3600, 100, 10⟩, 0, false, 1, 0⟩ 100 = true := by
  refine ⟨by decide, by decide, by decide⟩

/-! ### List slicing helpers for the overflow page layout -/

theorem drop_app_len (l x : List Nat) (k : Nat) (h : l.length = k) :
    (l ++ x).drop k = x := by
  subst h
  exact List.drop_left l x

theorem take_app_len (l x : List Nat) (k : Nat) (h : l.length = k) :
    (l ++ x).take k = l := by
  subst h
  exact List.take_left l x

theorem take_app_len_add (l x : List Nat) (k i : Nat) (h : l.length = k) :
    (l ++ x).take (k + i) = l ++ x.take i := by
  subst h
  exact List.take_append i

theorem getD_app_len_add (l x : List Nat) (k i : Nat) (h : l.length = k) :
    (l ++ x).getD (k + i) 0 = x.getD i 0 := by
  subst h
  rw [List.getD_eq_getElem?_getD, List.getElem?_append_right (by omega)]
  simp [List.getD_eq_getElem?_getD]

theorem set_app_len_add (l x : List Nat) (k i : Nat) (b : Nat) (h : l.length = k) :
    (l ++ x).set (k + i) b = l ++ x.set i b := by
  subst h
  induction l with
  | nil => simp
  | cons a l ih =>
    have hidx : (a :: l).length + i = (l.length + i) + 1 := by
      rw [List.length_cons]
      omega
    rw [hidx]
    show a :: ((l ++ x).set (l.length + i) b) = a :: (l ++ x.set i b)
    rw [ih]

theorem set_app_left (l x : List Nat) (i : Nat) (b : Nat) (h : i < l.length) :
    (l ++ x).set i b = l.set i b ++ x := by
  induction l generalizing i with
  | nil => simp at h
  | cons a l ih =>
    cases i with
    | zero => rfl
    | succ i =>
      show a :: ((l ++ x).set i b) = _
      rw [ih _ (by simpa using h)]
      rfl

theorem list_decomp_at (l : List Nat) (p : Nat) (h : p < l.length) :
    l = l.take p ++ l.getD p 0 :: l.drop (p + 1) := by
  conv_lhs => rw [← List.take_append_drop p l]
  congr 1
  rw [List.getD_eq_getElem?_getD, List.getElem?_eq_getElem h]
  show List.drop p l = l[p] :: List.drop (p + 1) l
  exact List.drop_eq_getElem_cons h

theorem set_decomp_at (l : List Nat) (p b : Nat) (h : p < l.length) :
    l.set p b = l.take p ++ b :: l.drop (p + 1) := by
  rw [List.set_eq_take_append_cons_drop, if_pos h]

/-! ### CRC32 single-byte-change detection (C5) -/

theorem xor_right_cancel {a b x : Nat} (h : a ^^^ x = b ^^^ x) : a = b := by
  have h2 := congrArg (fun y => y ^^^ x) h
  simpa [Nat.xor_assoc] using h2

theorem xor_left_cancel {a b x : Nat} (h : x ^^^ a = x ^^^ b) : a = b := by
  have h2 := congrArg (fun y => x ^^^ y) h
  simpa [← Nat.xor_assoc] using h2

theorem crcRound_inj {c1 c2 : Nat} (h1 : c1 < 2 ^ 32) (h2 : c2 < 2 ^ 32)
    (h : crcRound c1 = crcRound c2) : c1 = c2 := by
  unfold crcRound at h
  have hP1 : (2 : Nat) ^ 31 ≤ CRC_POLY := by norm_num [CRC_POLY]
  have hP2 : CRC_POLY < 2 ^ 32 := by norm_num [CRC_POLY]
  have key : ∀ x : Nat, x < 2 ^ 31 → 2 ^ 31 ≤ x ^^^ CRC_POLY := by
    intro x hx
    refine Nat.testBit_implies_ge ?_
    rw [Nat.testBit_xor, Nat.testBit_lt_two_pow hx]
    have hbit : CRC_POLY.testBit 31 = true := by decide
    rw [hbit]
    rfl
  by_cases p1 : c1 % 2 = 1 <;> by_cases p2 : c2 % 2 = 1
  · rw [if_pos p1, if_pos p2] at h
    have := xor_right_cancel h
    omega
  · rw [if_pos p1, if_neg p2] at h
    have hlt1 : c1 / 2 < 2 ^ 31 := by omega
    have hlt2 : c2 / 2 < 2 ^ 31 := by omega
    have hge := key (c1 / 2) hlt1
    rw [h] at hge
    omega
  · rw [if_neg p1, if_pos p2] at h
    have hlt1 : c1 / 2 < 2 ^ 31 := by omega
    have hlt2 : c2 / 2 < 2 ^ 31 := by omega
    have hge := key (c2 / 2) hlt2
    rw [← h] at hge
    omega
  · rw [if_neg p1, if_neg p2] at h
    omega

theorem crcRounds_inj (n : Nat) {c1 c2 : Nat} (h1 : c1 < 2 ^ 32)
    (h2 : c2 < 2 ^ 32) (h : crcRounds n c1 = crcRounds n c2) : c1 = c2 := by
  induction n generalizing c1 c2 with
  | zero => exact h
  | succ n ih =>
    exact crcRound_inj h1 h2 (ih (crcRound_lt h1) (crcRound_lt h2) h)

/-- The per-byte CRC accumulator step of `compute_checksum`. -/
theorem crcStep_inj_acc {a1 a2 b : Nat} (ha1 : a1 < 2 ^ 32) (ha2 : a2 < 2 ^ 32)
    (hb : b < 256) (hne : a1 ≠ a2) :
    crcRounds 8 (a1 ^^^ b) ≠ crcRounds 8 (a2 ^^^ b) := by
  intro h
  have hx1 : a1 ^^^ b < 2 ^ 32 := Nat.xor_lt_two_pow ha1 (by omega)
  have hx2 : a2 ^^^ b < 2 ^ 32 := Nat.xor_lt_two_pow ha2 (by omega)
  exact hne (xor_right_cancel (crcRounds_inj 8 hx1 hx2 h))

theorem crcStep_inj_byte {a b1 b2 : Nat} (ha : a < 2 ^ 32) (hb1 : b1 < 256)
    (hb2 : b2 < 256) (hne : b1 ≠ b2) :
    crcRounds 8 (a ^^^ b1) ≠ crcRounds 8 (a ^^^ b2) := by
  intro h
  have hx1 : a ^^^ b1 < 2 ^ 32 := Nat.xor_lt_two_pow ha (by omega)
  have hx2 : a ^^^ b2 < 2 ^ 32 := Nat.xor_lt_two_pow ha (by omega)
  exact hne (xor_left_cancel (crcRounds_inj 8 hx1 hx2 h))

theorem crcFold_lt (l : List Nat) (hb : ∀ b ∈ l, b < 256) (acc : Nat)
    (hacc : acc < 2 ^ 32) :
    l.foldl (fun crc b => crcRounds 8 (crc ^^^ b)) acc < 2 ^ 32 := by
  induction l generalizing acc with
  | nil => exact hacc
  | cons b bs ih =>
    refine ih (fun x hx => hb x (List.mem_cons_of_mem _ hx)) _ ?_
    refine crcRounds_lt 8 (Nat.xor_lt_two_pow hacc ?_)
    have := hb b (List.mem_cons_self _ _)
    omega

theorem crcFold_inj_acc (l : List Nat) (hb : ∀ b ∈ l, b < 256)
    {a1 a2 : Nat} (ha1 : a1 < 2 ^ 32) (ha2 : a2 < 2 ^ 32) (hne : a1 ≠ a2) :
    l.foldl (fun crc b => crcRounds 8 (crc ^^^ b)) a1 ≠
      l.foldl (fun crc b => crcRounds 8 (crc ^^^ b)) a2 := by
  induction l generalizing a1 a2 with
  | nil => exact hne
  | cons b bs ih =>
    have hbb : b < 256 := hb b (List.mem_cons_self _ _)
    refine ih (fun x hx => hb x (List.mem_cons_of_mem _ hx))
      (crcRounds_lt 8 (Nat.xor_lt_two_pow ha1 (by omega)))
      (crcRounds_lt 8 (Nat.xor_lt_two_pow ha2 (by omega)))
      (crcStep_inj_acc ha1 ha2 hbb hne)

/-- Changing one byte of a chunk changes its `compute_checksum` —
CRC32 detects every single-byte corruption. -/
theorem overflowChecksum_set_ne (chunk : List Nat) (p b2 : Nat)
    (hp : p < chunk.length) (hb : ∀ b ∈ chunk, b < 256)
    (hb2 : b2 < 256) (hne : b2 ≠ chunk.getD p 0) :
    overflowChecksum (chunk.set p b2) ≠ overflowChecksum chunk := by
  intro h
  unfold overflowChecksum at h
  have h2 := xor_right_cancel h
  rw [set_decomp_at _ _ _ hp] at h2
  conv_rhs at h2 => rw [list_decomp_at chunk p hp]
  rw [List.foldl_append, List.foldl_append, List.foldl_cons, List.foldl_cons] at h2
  have hbpre : ∀ b ∈ chunk.take p, b < 256 :=
    fun b hbm => hb b (List.mem_of_mem_take hbm)
  have hbsuf : ∀ b ∈ chunk.drop (p + 1), b < 256 :=
    fun b hbm => hb b (List.mem_of_mem_drop hbm)
  have haccb : (chunk.take p).foldl (fun crc b => crcRounds 8 (crc ^^^ b))
      0xFFFFFFFF < 2 ^ 32 := crcFold_lt _ hbpre _ (by norm_num)
  have hold : chunk.getD p 0 < 256 := by
    have : chunk.getD p 0 ∈ chunk := by
      rw [List.getD_eq_getElem?_getD, List.getElem?_eq_getElem hp]
      exact List.getElem_mem hp
    exact hb _ this
  refine crcFold_inj_acc (chunk.drop (p + 1)) hbsuf
    (crcRounds_lt 8 (Nat.xor_lt_two_pow haccb (by omega)))
    (crcRounds_lt 8 (Nat.xor_lt_two_pow haccb (by omega)))
    (crcStep_inj_byte haccb hb2 hold hne) h2

theorem allocateLoop_nil (m : OverflowManager) (c fuel : Nat) :
    (allocateLoop m c [] fuel).2 = [] := by
  cases fuel <;> simp [allocateLoop]

/-- With an empty free list, `allocate_overflow`'s loop produces exactly
`buildChain`. -/
theorem allocateLoop_eq_buildChain (ps : Nat) :
    ∀ fuel rem n, (allocateLoop ⟨n + 1, [], ps⟩ n rem fuel).2
      = buildChain ps n rem fuel := by
  intro fuel
  induction fuel with
  | zero => intro rem n; rfl
  | succ fuel ih =>
    intro rem n
    by_cases hrem : rem.isEmpty
    · simp [allocateLoop, buildChain, hrem]
    · by_cases hrest : (rem.drop (min rem.length (ps - OVERFLOW_HEADER_SIZE))).isEmpty
      · have hrest2 : rem.drop (min rem.length (ps - OVERFLOW_HEADER_SIZE)) = [] := by
          simpa using hrest
        simp [allocateLoop, buildChain, hrem, hrest, hrest2, allocateLoop_nil]
      · simp [allocateLoop, buildChain, hrem, hrest, OverflowManager.allocPage, ih]

/-- The overflow page split into its header fields and body. -/
theorem overflowPage_decomp (ps next : Nat) (chunk : List Nat) :
    overflowPage ps next chunk
      = ([5 % 256] ++ List.replicate 7 0) ++
        (leN 8 next ++ (leN 4 (chunk.length % 2 ^ 32) ++
          (leN 4 (overflowChecksum chunk) ++
            (chunk ++ List.replicate (ps - OVERFLOW_HEADER_SIZE - chunk.length) 0)))) := rfl

theorem overflowPage_length (ps next : Nat) (chunk : List Nat)
    (hps : 24 < ps) (hcl : chunk.length ≤ ps - OVERFLOW_HEADER_SIZE) :
    (overflowPage ps next chunk).length = ps := by
  rw [overflowPage_decomp]
  simp only [List.length_append, List.length_cons, List.length_nil,
    List.length_replicate, leN_length, OVERFLOW_HEADER_SIZE]
  unfold OVERFLOW_HEADER_SIZE at hcl
  omega

theorem overflowPage_drop8 (ps next : Nat) (chunk : List Nat) :
    (overflowPage ps next chunk).drop 8
      = leN 8 next ++ (leN 4 (chunk.length % 2 ^ 32) ++
        (leN 4 (overflowChecksum chunk) ++
          (chunk ++ List.replicate (ps - OVERFLOW_HEADER_SIZE - chunk.length) 0))) := by
  rw [overflowPage_decomp]
  exact drop_app_len _ _ _ (by simp)

theorem overflowPage_drop16 (ps next : Nat) (chunk : List Nat) :
    (overflowPage ps next chunk).drop 16
      = leN 4 (chunk.length % 2 ^ 32) ++
        (leN 4 (overflowChecksum chunk) ++
          (chunk ++ List.replicate (ps - OVERFLOW_HEADER_SIZE - chunk.length) 0)) := by
  have h : overflowPage ps next chunk
      = (([5 % 256] ++ List.replicate 7 0) ++ leN 8 next) ++
        (leN 4 (chunk.length % 2 ^ 32) ++
          (leN 4 (overflowChecksum chunk) ++
            (chunk ++ List.replicate (ps - OVERFLOW_HEADER_SIZE - chunk.length) 0))) := rfl
  rw [h]
  exact drop_app_len _ _ _ (by simp [leN_length])

theorem overflowPage_drop20 (ps next : Nat) (chunk : List Nat) :
    (overflowPage ps next chunk).drop 20
      = leN 4 (overflowChecksum chunk) ++
        (chunk ++ List.replicate (ps - OVERFLOW_HEADER_SIZE - chunk.length) 0) := by
  have h : overflowPage ps next chunk
      = ((([5 % 256] ++ List.replicate 7 0) ++ leN 8 next) ++
          leN 4 (chunk.length % 2 ^ 32)) ++
        (leN 4 (overflowChecksum chunk) ++
          (chunk ++ List.replicate (ps - OVERFLOW_HEADER_SIZE - chunk.length) 0)) := rfl
  rw [h]
  exact drop_app_len _ _ _ (by simp [leN_length])

theorem overflowPage_head24 (ps next : Nat) (chunk : List Nat) :
    overflowPage ps next chunk
      = OverflowHeader.toBytes ⟨5, next, chunk.length % 2 ^ 32, overflowChecksum chunk⟩ ++
        (chunk ++ List.replicate (ps - OVERFLOW_HEADER_SIZE - chunk.length) 0) := by
  simp [overflowPage, List.append_assoc]

theorem overflowHeader_toBytes_length (h : OverflowHeader) :
    h.toBytes.length = 24 := by
  simp [OverflowHeader.toBytes, leN_length]

theorem fromBytes_overflowPage (ps next : Nat) (chunk : List Nat)
    (hps : 24 < ps) (hps2 : ps < 2 ^ 32) (hnext : next < 2 ^ 64)
    (hcl : chunk.length ≤ ps - OVERFLOW_HEADER_SIZE)
    (hb : ∀ b ∈ chunk, b < 256) :
    OverflowHeader.fromBytes (overflowPage ps next chunk)
      = some ⟨5, next, chunk.length, overflowChecksum chunk⟩ := by
  have hlen := overflowPage_length ps next chunk hps hcl
  have hcl32 : chunk.length < 2 ^ 32 := by
    unfold OVERFLOW_HEADER_SIZE at hcl
    omega
  have hhead : (overflowPage ps next chunk).headD 0 = 5 := by
    rw [overflowPage_decomp]
    rfl
  have h8 : readLEN 8 ((overflowPage ps next chunk).drop 8) = next := by
    rw [overflowPage_drop8, readLEN_leN]
    exact Nat.mod_eq_of_lt (by norm_num; omega)
  have h16 : readLEN 4 ((overflowPage ps next chunk).drop 16) = chunk.length := by
    rw [overflowPage_drop16, readLEN_leN]
    rw [Nat.mod_mod_of_dvd _ (by norm_num)]
    exact Nat.mod_eq_of_lt (by norm_num; omega)
  have h20 : readLEN 4 ((overflowPage ps next chunk).drop 20)
      = overflowChecksum chunk := by
    rw [overflowPage_drop20, readLEN_leN]
    exact Nat.mod_eq_of_lt (by norm_num; exact overflowChecksum_lt chunk hb)
  unfold OverflowHeader.fromBytes
  rw [hlen, hhead, h8, h16, h20]
  simp only [if_neg (by omega : ¬(ps < 24))]
  norm_num

theorem overflowPage_chunk_slice (ps next : Nat) (chunk : List Nat) :
    ((overflowPage ps next chunk).take (OVERFLOW_HEADER_SIZE + chunk.length)).drop
      OVERFLOW_HEADER_SIZE = chunk := by
  simp only [OVERFLOW_HEADER_SIZE]
  rw [overflowPage_head24,
    take_app_len_add _ _ _ _ (overflowHeader_toBytes_length _),
    take_app_len _ _ _ rfl]
  exact drop_app_len _ _ _ (overflowHeader_toBytes_length _)

theorem pageStore_append_skip (pre l : List (Nat × List Nat)) (q : Nat)
    (h : ∀ e ∈ pre, e.1 ≠ q) : pageStore (pre ++ l) q = pageStore l q := by
  induction pre with
  | nil => rfl
  | cons e pre ih =>
    unfold pageStore
    rw [List.cons_append,
      List.find?_cons_of_neg _ (by simp [h e (List.mem_cons_self _ _)])]
    exact ih (fun e2 he2 => h e2 (List.mem_cons_of_mem _ he2))

theorem pageStore_cons_self (pid : Nat) (pg : List Nat)
    (l : List (Nat × List Nat)) : pageStore ((pid, pg) :: l) pid = some pg := by
  unfold pageStore
  rw [List.find?_cons_of_pos _ (by simp)]
  rfl

theorem pageStore_cons_ne (pid q : Nat) (pg : List Nat)
    (l : List (Nat × List Nat)) (h : pid ≠ q) :
    pageStore ((pid, pg) :: l) q = pageStore l q := by
  unfold pageStore
  rw [List.find?_cons_of_neg _ (by simp [h])]

theorem readOverflowLoop_zero (s : Nat → Option (List Nat)) (acc : List Nat)
    (fuel : Nat) : readOverflowLoop s acc 0 fuel = some acc := by
  cases fuel <;> simp [readOverflowLoop]

/-- Walking the chain written for `rem` returns exactly `rem` appended
to the accumulator, under any junk pages with smaller ids. -/
theorem readChain (ps : Nat) (hps : 24 < ps) (hps2 : ps < 2 ^ 32) :
    ∀ fuel (rem : List Nat) (n : Nat) (acc : List Nat) (readFuel : Nat)
      (pre : List (Nat × List Nat)),
      rem ≠ [] → (∀ b ∈ rem, b < 256) →
      rem.length ≤ fuel →
      rem.length ≤ readFuel * (ps - OVERFLOW_HEADER_SIZE) →
      1 ≤ n → n + rem.length < 2 ^ 64 →
      (∀ e ∈ pre, e.1 < n) →
      readOverflowLoop (pageStore (pre ++ buildChain ps n rem fuel)) acc n readFuel
        = some (acc ++ rem) := by
  intro fuel
  induction fuel with
  | zero =>
    intro rem n acc readFuel pre hrem _ hfuel _ _ _ _
    exact absurd (List.length_eq_zero.mp (Nat.le_zero.mp hfuel)) hrem
  | succ fuel ih =>
    intro rem n acc readFuel pre hrem hb hfuel hrf hn hid hpre
    have hds : 1 ≤ ps - OVERFLOW_HEADER_SIZE := by
      unfold OVERFLOW_HEADER_SIZE
      omega
    have hremlen : 1 ≤ rem.length := List.length_pos.mpr hrem
    obtain ⟨rf, rfl⟩ : ∃ rf, readFuel = rf + 1 := by
      cases readFuel with
      | zero =>
        rw [Nat.zero_mul] at hrf
        exact absurd hrf (by omega)
      | succ rf => exact ⟨rf, rfl⟩
    have hn0 : n ≠ 0 := by omega
    have hskip : ∀ e ∈ pre, e.1 ≠ n := fun e he => by
      have := hpre e he
      omega
    have hremE : rem.isEmpty = false := by
      cases rem with
      | nil => exact absurd rfl hrem
      | cons a l => rfl
    by_cases hrest : (rem.drop (min rem.length (ps - OVERFLOW_HEADER_SIZE))).isEmpty
    · -- last page of the chain
      have hrest2 : rem.drop (min rem.length (ps - OVERFLOW_HEADER_SIZE)) = [] := by
        simpa using hrest
      have hcl : min rem.length (ps - OVERFLOW_HEADER_SIZE) = rem.length := by
        have h3 := congrArg List.length hrest2
        simp only [List.length_drop, List.length_nil] at h3
        omega
      have hchunk : rem.take (min rem.length (ps - OVERFLOW_HEADER_SIZE)) = rem := by
        rw [hcl]
        simp
      have hbc : buildChain ps n rem (fuel + 1) = [(n, overflowPage ps 0 rem)] := by
        simp [buildChain, hremE, hrest, hchunk]
      have hlenle : rem.length ≤ ps - OVERFLOW_HEADER_SIZE := by omega
      have hstore : pageStore (pre ++ buildChain ps n rem (fuel + 1)) n
          = some (overflowPage ps 0 rem) := by
        rw [hbc, pageStore_append_skip _ _ _ hskip, pageStore_cons_self]
      have hfb := fromBytes_overflowPage ps 0 rem hps hps2 (by norm_num) hlenle hb
      have hplen := overflowPage_length ps 0 rem hps hlenle
      have hslice := overflowPage_chunk_slice ps 0 rem
      simp only [readOverflowLoop, if_neg hn0, hstore, hfb, hplen]
      rw [if_neg (by omega), hslice, if_neg (fun h => h rfl), readOverflowLoop_zero]
    · -- interior page linking to n+1
      have hlt : ps - OVERFLOW_HEADER_SIZE < rem.length := by
        by_contra hcon
        push_neg at hcon
        rw [Nat.min_eq_left hcon, List.drop_length] at hrest
        exact hrest rfl
      have hcl : min rem.length (ps - OVERFLOW_HEADER_SIZE)
          = ps - OVERFLOW_HEADER_SIZE := Nat.min_eq_right (le_of_lt hlt)
      rw [hcl] at hrest
      have hbc : buildChain ps n rem (fuel + 1)
          = (n, overflowPage ps (n + 1) (rem.take (ps - OVERFLOW_HEADER_SIZE)))
            :: buildChain ps (n + 1) (rem.drop (ps - OVERFLOW_HEADER_SIZE)) fuel := by
        simp [buildChain, hremE, hrest, hcl]
      have hchunklen : (rem.take (ps - OVERFLOW_HEADER_SIZE)).length
          = ps - OVERFLOW_HEADER_SIZE := by
        rw [List.length_take]
        omega
      have hcl2 : (rem.take (ps - OVERFLOW_HEADER_SIZE)).length
          ≤ ps - OVERFLOW_HEADER_SIZE := le_of_eq hchunklen
      have hchunkb : ∀ b ∈ rem.take (ps - OVERFLOW_HEADER_SIZE), b < 256 :=
        fun b hbm => hb b (List.mem_of_mem_take hbm)
      have hnext64 : n + 1 < 2 ^ 64 := by omega
      have hstore : pageStore (pre ++ buildChain ps n rem (fuel + 1)) n
          = some (overflowPage ps (n + 1) (rem.take (ps - OVERFLOW_HEADER_SIZE))) := by
        rw [hbc, pageStore_append_skip _ _ _ hskip, pageStore_cons_self]
      have hfb := fromBytes_overflowPage ps (n + 1)
        (rem.take (ps - OVERFLOW_HEADER_SIZE)) hps hps2 hnext64 hcl2 hchunkb
      have hplen := overflowPage_length ps (n + 1)
        (rem.take (ps - OVERFLOW_HEADER_SIZE)) hps hcl2
      have hslice := overflowPage_chunk_slice ps (n + 1)
        (rem.take (ps - OVERFLOW_HEADER_SIZE))
      have hrest3 : rem.drop (ps - OVERFLOW_HEADER_SIZE) ≠ [] := by
        intro h
        apply hrest
        rw [h]
        rfl
      have hb2 : ∀ b ∈ rem.drop (ps - OVERFLOW_HEADER_SIZE), b < 256 :=
        fun b hbm => hb b (List.mem_of_mem_drop hbm)
      have hfuel2 : (rem.drop (ps - OVERFLOW_HEADER_SIZE)).length ≤ fuel := by
        rw [List.length_drop]
        omega
      have hmul : (rf + 1) * (ps - OVERFLOW_HEADER_SIZE)
          = rf * (ps - OVERFLOW_HEADER_SIZE) + (ps - OVERFLOW_HEADER_SIZE) :=
        Nat.succ_mul rf _
      have hrf2 : (rem.drop (ps - OVERFLOW_HEADER_SIZE)).length
          ≤ rf * (ps - OVERFLOW_HEADER_SIZE) := by
        rw [List.length_drop]
        omega
      have hid2 : n + 1 + (rem.drop (ps - OVERFLOW_HEADER_SIZE)).length < 2 ^ 64 := by
        rw [List.length_drop]
        omega
      have hpre2 : ∀ e ∈ pre
          ++ [(n, overflowPage ps (n + 1) (rem.take (ps - OVERFLOW_HEADER_SIZE)))],
          e.1 < n + 1 := by
        intro e he
        rcases List.mem_append.mp he with h1 | h1
        · exact Nat.lt_succ_of_lt (hpre e h1)
        · rw [List.mem_singleton.mp h1]
          exact Nat.lt_succ_self n
      have happ : pre ++ buildChain ps n rem (fuel + 1)
          = (pre ++ [(n, overflowPage ps (n + 1) (rem.take (ps - OVERFLOW_HEADER_SIZE)))])
            ++ buildChain ps (n + 1) (rem.drop (ps - OVERFLOW_HEADER_SIZE)) fuel := by
        rw [hbc]
        simp
      simp only [readOverflowLoop, if_neg hn0, hstore, hfb, hplen]
      rw [if_neg (by omega), hslice, if_neg (fun h => h rfl), happ,
        ih (rem.drop (ps - OVERFLOW_HEADER_SIZE)) (n + 1)
          (acc ++ rem.take (ps - OVERFLOW_HEADER_SIZE)) rf
          (pre ++ [(n, overflowPage ps (n + 1) (rem.take (ps - OVERFLOW_HEADER_SIZE)))])
          hrest3 hb2 hfuel2 hrf2 (by omega) hid2 hpre2,
        List.append_assoc, List.take_append_drop]

theorem fromBytes_toBytes_append (next dl cs : Nat) (body : List Nat)
    (hnext : next < 2 ^ 64) (hdl : dl < 2 ^ 32) (hcs : cs < 2 ^ 32) :
    OverflowHeader.fromBytes (OverflowHeader.toBytes ⟨5, next, dl, cs⟩ ++ body)
      = some ⟨5, next, dl, cs⟩ := by
  have hsh : OverflowHeader.toBytes ⟨5, next, dl, cs⟩ ++ body
      = ([5 % 256] ++ List.replicate 7 0)
        ++ (leN 8 next ++ (leN 4 dl ++ (leN 4 cs ++ body))) := by
    simp [OverflowHeader.toBytes, List.append_assoc]
  have hsh16 : OverflowHeader.toBytes ⟨5, next, dl, cs⟩ ++ body
      = (([5 % 256] ++ List.replicate 7 0) ++ leN 8 next)
        ++ (leN 4 dl ++ (leN 4 cs ++ body)) := by
    simp [OverflowHeader.toBytes, List.append_assoc]
  have hsh20 : OverflowHeader.toBytes ⟨5, next, dl, cs⟩ ++ body
      = ((([5 % 256] ++ List.replicate 7 0) ++ leN 8 next) ++ leN 4 dl)
        ++ (leN 4 cs ++ body) := by
    simp [OverflowHeader.toBytes, List.append_assoc]
  have hlen : (OverflowHeader.toBytes ⟨5, next, dl, cs⟩ ++ body).length
      = 24 + body.length := by
    rw [List.length_append, overflowHeader_toBytes_length]
  have hhead : (OverflowHeader.toBytes ⟨5, next, dl, cs⟩ ++ body).headD 0 = 5 := by
    rw [hsh]
    rfl
  have h8 : readLEN 8 ((OverflowHeader.toBytes ⟨5, next, dl, cs⟩ ++ body).drop 8)
      = next := by
    rw [hsh, drop_app_len _ _ _ (by simp), readLEN_leN]
    exact Nat.mod_eq_of_lt (by norm_num; omega)
  have h16 : readLEN 4 ((OverflowHeader.toBytes ⟨5, next, dl, cs⟩ ++ body).drop 16)
      = dl := by
    rw [hsh16, drop_app_len _ _ _ (by simp [leN_length]), readLEN_leN]
    exact Nat.mod_eq_of_lt (by norm_num; omega)
  have h20 : readLEN 4 ((OverflowHeader.toBytes ⟨5, next, dl, cs⟩ ++ body).drop 20)
      = cs := by
    rw [hsh20, drop_app_len _ _ _ (by simp [leN_length]), readLEN_leN]
    exact Nat.mod_eq_of_lt (by norm_num; omega)
  unfold OverflowHeader.fromBytes
  rw [hlen, hhead, h8, h16, h20]
  simp only [if_neg (by omega : ¬(24 + body.length < 24))]
  norm_num

/-- One walk step over a page whose chunk was corrupted at one byte:
the stored checksum no longer matches, so the read fails. -/
theorem readCorruptPage_step (ps : Nat) (hps : 24 < ps) (hps2 : ps < 2 ^ 32)
    (store : Nat → Option (List Nat)) (acc chunk : List Nat) (n next rf p b2 : Nat)
    (hn0 : n ≠ 0) (hnext : next < 2 ^ 64)
    (hcl : chunk.length ≤ ps - OVERFLOW_HEADER_SIZE)
    (hcb : ∀ b ∈ chunk, b < 256)
    (hp : p < chunk.length) (hb2 : b2 < 256) (hne : b2 ≠ chunk.getD p 0)
    (hstore : store n
      = some ((overflowPage ps next chunk).set (OVERFLOW_HEADER_SIZE + p) b2)) :
    readOverflowLoop store acc n (rf + 1) = none := by
  have hds : 1 ≤ ps - OVERFLOW_HEADER_SIZE := by
    unfold OVERFLOW_HEADER_SIZE
    omega
  have hcl32 : chunk.length < 2 ^ 32 := by
    unfold OVERFLOW_HEADER_SIZE at hcl
    omega
  have hdec : (overflowPage ps next chunk).set (OVERFLOW_HEADER_SIZE + p) b2
      = OverflowHeader.toBytes ⟨5, next, chunk.length % 2 ^ 32, overflowChecksum chunk⟩
        ++ (chunk.set p b2
          ++ List.replicate (ps - OVERFLOW_HEADER_SIZE - chunk.length) 0) := by
    rw [overflowPage_head24,
      set_app_len_add _ _ _ _ _ (by rw [overflowHeader_toBytes_length]; rfl),
      set_app_left _ _ _ _ hp]
  have hfb : OverflowHeader.fromBytes
      ((overflowPage ps next chunk).set (OVERFLOW_HEADER_SIZE + p) b2)
      = some ⟨5, next, chunk.length, overflowChecksum chunk⟩ := by
    rw [hdec, fromBytes_toBytes_append next (chunk.length % 2 ^ 32)
      (overflowChecksum chunk) _ hnext (Nat.mod_lt _ (by norm_num))
      (overflowChecksum_lt chunk hcb), Nat.mod_eq_of_lt hcl32]
  have hplen : ((overflowPage ps next chunk).set (OVERFLOW_HEADER_SIZE + p) b2).length
      = ps := by
    rw [List.length_set]
    exact overflowPage_length ps next chunk hps hcl
  have hslice : (((overflowPage ps next chunk).set (OVERFLOW_HEADER_SIZE + p) b2).take
      (OVERFLOW_HEADER_SIZE + chunk.length)).drop OVERFLOW_HEADER_SIZE
      = chunk.set p b2 := by
    rw [hdec, take_app_len_add _ _ _ _ (by rw [overflowHeader_toBytes_length]; rfl),
      take_app_len _ _ _ (by rw [List.length_set]),
      drop_app_len _ _ _ (by rw [overflowHeader_toBytes_length]; rfl)]
  simp only [readOverflowLoop, if_neg hn0, hstore, hfb, hplen]
  rw [if_neg (by omega), hslice,
    if_pos (overflowChecksum_set_ne chunk p b2 hp hcb hb2 hne)]

theorem getD_take (l : List Nat) (n p : Nat) (h : p < n) :
    (l.take n).getD p 0 = l.getD p 0 := by
  induction l generalizing n p with
  | nil => simp
  | cons a l ih =>
    cases n with
    | zero => omega
    | succ n =>
      cases p with
      | zero => rfl
      | succ p =>
        show (l.take n).getD p 0 = l.getD p 0
        exact ih n p (by omega)

theorem getD_drop (l : List Nat) : ∀ n i, (l.drop n).getD i 0 = l.getD (n + i) 0 := by
  induction l with
  | nil =>
    intro n i
    simp
  | cons a l ih =>
    intro n i
    cases n with
    | zero =>
      rw [Nat.zero_add]
      rfl
    | succ n =>
      show (l.drop n).getD i 0 = (a :: l).getD (n + 1 + i) 0
      rw [show n + 1 + i = (n + i) + 1 from by omega, List.getD_cons_succ]
      exact ih n i

/-- Walking the chain written for `rem` with the `k`-th chain page's
chunk corrupted at offset `p` fails: the corrupted page's checksum no
longer matches. -/
theorem readChainCorrupt (ps : Nat) (hps : 24 < ps) (hps2 : ps < 2 ^ 32) :
    ∀ fuel (rem : List Nat) (n : Nat) (acc : List Nat) (readFuel : Nat)
      (pre : List (Nat × List Nat)) (k p b2 : Nat),
      rem ≠ [] → (∀ b ∈ rem, b < 256) →
      rem.length ≤ fuel →
      rem.length ≤ readFuel * (ps - OVERFLOW_HEADER_SIZE) →
      1 ≤ n → n + rem.length < 2 ^ 64 →
      (∀ e ∈ pre, e.1 < n) →
      p < min (rem.length - k * (ps - OVERFLOW_HEADER_SIZE))
        (ps - OVERFLOW_HEADER_SIZE) →
      b2 < 256 → b2 ≠ rem.getD (k * (ps - OVERFLOW_HEADER_SIZE) + p) 0 →
      readOverflowLoop (pageStore (pre ++ (buildChain ps n rem fuel).map
        (fun e => if e.1 = n + k
          then (e.1, e.2.set (OVERFLOW_HEADER_SIZE + p) b2) else e)))
        acc n readFuel = none := by
  intro fuel
  induction fuel with
  | zero =>
    intro rem n acc readFuel pre k p b2 hrem _ hfuel _ _ _ _ _ _ _
    exact absurd (List.length_eq_zero.mp (Nat.le_zero.mp hfuel)) hrem
  | succ fuel ih =>
    intro rem n acc readFuel pre k p b2 hrem hb hfuel hrf hn hid hpre hp hb2 hne
    have hds : 1 ≤ ps - OVERFLOW_HEADER_SIZE := by
      unfold OVERFLOW_HEADER_SIZE
      omega
    have hremlen : 1 ≤ rem.length := List.length_pos.mpr hrem
    obtain ⟨rf, rfl⟩ : ∃ rf, readFuel = rf + 1 := by
      cases readFuel with
      | zero =>
        rw [Nat.zero_mul] at hrf
        exact absurd hrf (by omega)
      | succ rf => exact ⟨rf, rfl⟩
    have hn0 : n ≠ 0 := by omega
    have hskip : ∀ e ∈ pre, e.1 ≠ n := fun e he => by
      have := hpre e he
      omega
    have hremE : rem.isEmpty = false := by
      cases rem with
      | nil => exact absurd rfl hrem
      | cons a l => rfl
    cases k with
    | zero =>
      simp only [Nat.zero_mul, Nat.sub_zero] at hp
      simp only [Nat.zero_mul, Nat.zero_add] at hne
      by_cases hrest : (rem.drop (min rem.length (ps - OVERFLOW_HEADER_SIZE))).isEmpty
      · -- corrupted page is the single/last page
        have hrest2 : rem.drop (min rem.length (ps - OVERFLOW_HEADER_SIZE)) = [] := by
          simpa using hrest
        have hcl : min rem.length (ps - OVERFLOW_HEADER_SIZE) = rem.length := by
          have h3 := congrArg List.length hrest2
          simp only [List.length_drop, List.length_nil] at h3
          omega
        have hchunk : rem.take (min rem.length (ps - OVERFLOW_HEADER_SIZE)) = rem := by
          rw [hcl]
          simp
        have hbc : buildChain ps n rem (fuel + 1) = [(n, overflowPage ps 0 rem)] := by
          simp [buildChain, hremE, hrest, hchunk]
        have hmapbc : (buildChain ps n rem (fuel + 1)).map
            (fun e => if e.1 = n + 0
              then (e.1, e.2.set (OVERFLOW_HEADER_SIZE + p) b2) else e)
            = [(n, (overflowPage ps 0 rem).set (OVERFLOW_HEADER_SIZE + p) b2)] := by
          rw [hbc]
          simp
        rw [hmapbc]
        exact readCorruptPage_step ps hps hps2 _ acc rem n 0 rf p b2 hn0
          (by norm_num) (by omega) hb (by omega) hb2 hne
          (by rw [pageStore_append_skip _ _ _ hskip, pageStore_cons_self])
      · -- corrupted page is the head of a longer chain
        have hlt : ps - OVERFLOW_HEADER_SIZE < rem.length := by
          by_contra hcon
          push_neg at hcon
          rw [Nat.min_eq_left hcon, List.drop_length] at hrest
          exact hrest rfl
        have hcl : min rem.length (ps - OVERFLOW_HEADER_SIZE)
            = ps - OVERFLOW_HEADER_SIZE := Nat.min_eq_right (le_of_lt hlt)
        rw [hcl] at hrest
        have hbc : buildChain ps n rem (fuel + 1)
            = (n, overflowPage ps (n + 1) (rem.take (ps - OVERFLOW_HEADER_SIZE)))
              :: buildChain ps (n + 1) (rem.drop (ps - OVERFLOW_HEADER_SIZE)) fuel := by
          simp [buildChain, hremE, hrest, hcl]
        have hchunklen : (rem.take (ps - OVERFLOW_HEADER_SIZE)).length
            = ps - OVERFLOW_HEADER_SIZE := by
          rw [List.length_take]
          omega
        have hmapbc : (buildChain ps n rem (fuel + 1)).map
            (fun e => if e.1 = n + 0
              then (e.1, e.2.set (OVERFLOW_HEADER_SIZE + p) b2) else e)
            = (n, (overflowPage ps (n + 1)
                (rem.take (ps - OVERFLOW_HEADER_SIZE))).set
                  (OVERFLOW_HEADER_SIZE + p) b2)
              :: (buildChain ps (n + 1) (rem.drop (ps - OVERFLOW_HEADER_SIZE)) fuel).map
                (fun e => if e.1 = n + 0
                  then (e.1, e.2.set (OVERFLOW_HEADER_SIZE + p) b2) else e) := by
          rw [hbc]
          simp
        have hne2 : b2 ≠ (rem.take (ps - OVERFLOW_HEADER_SIZE)).getD p 0 := by
          rw [getD_take _ _ _ (by omega)]
          exact hne
        rw [hmapbc]
        exact readCorruptPage_step ps hps hps2 _ acc
          (rem.take (ps - OVERFLOW_HEADER_SIZE)) n (n + 1) rf p b2 hn0
          (by omega) (le_of_eq hchunklen)
          (fun b hbm => hb b (List.mem_of_mem_take hbm)) (by omega) hb2 hne2
          (by rw [pageStore_append_skip _ _ _ hskip, pageStore_cons_self])
    | succ k2 =>
      have hmulk : (k2 + 1) * (ps - OVERFLOW_HEADER_SIZE)
          = k2 * (ps - OVERFLOW_HEADER_SIZE) + (ps - OVERFLOW_HEADER_SIZE) :=
        Nat.succ_mul k2 _
      by_cases hrest : (rem.drop (min rem.length (ps - OVERFLOW_HEADER_SIZE))).isEmpty
      · -- a single page cannot host chain position k2+1
        have hrest2 : rem.drop (min rem.length (ps - OVERFLOW_HEADER_SIZE)) = [] := by
          simpa using hrest
        have hcl : min rem.length (ps - OVERFLOW_HEADER_SIZE) = rem.length := by
          have h3 := congrArg List.length hrest2
          simp only [List.length_drop, List.length_nil] at h3
          omega
        exact absurd hp (by omega)
      · -- intact head, corruption further down the chain
        have hlt : ps - OVERFLOW_HEADER_SIZE < rem.length := by
          by_contra hcon
          push_neg at hcon
          rw [Nat.min_eq_left hcon, List.drop_length] at hrest
          exact hrest rfl
        have hcl : min rem.length (ps - OVERFLOW_HEADER_SIZE)
            = ps - OVERFLOW_HEADER_SIZE := Nat.min_eq_right (le_of_lt hlt)
        rw [hcl] at hrest
        have hbc : buildChain ps n rem (fuel + 1)
            = (n, overflowPage ps (n + 1) (rem.take (ps - OVERFLOW_HEADER_SIZE)))
              :: buildChain ps (n + 1) (rem.drop (ps - OVERFLOW_HEADER_SIZE)) fuel := by
          simp [buildChain, hremE, hrest, hcl]
        have hmapbc : (buildChain ps n rem (fuel + 1)).map
            (fun e => if e.1 = n + (k2 + 1)
              then (e.1, e.2.set (OVERFLOW_HEADER_SIZE + p) b2) else e)
            = (n, overflowPage ps (n + 1) (rem.take (ps - OVERFLOW_HEADER_SIZE)))
              :: (buildChain ps (n + 1) (rem.drop (ps - OVERFLOW_HEADER_SIZE)) fuel).map
                (fun e => if e.1 = n + (k2 + 1)
                  then (e.1, e.2.set (OVERFLOW_HEADER_SIZE + p) b2) else e) := by
          rw [hbc]
          simp [show ¬ (n = n + (k2 + 1)) from by omega]
        have hchunklen : (rem.take (ps - OVERFLOW_HEADER_SIZE)).length
            = ps - OVERFLOW_HEADER_SIZE := by
          rw [List.length_take]
          omega
        have hcl2 : (rem.take (ps - OVERFLOW_HEADER_SIZE)).length
            ≤ ps - OVERFLOW_HEADER_SIZE := le_of_eq hchunklen
        have hchunkb : ∀ b ∈ rem.take (ps - OVERFLOW_HEADER_SIZE), b < 256 :=
          fun b hbm => hb b (List.mem_of_mem_take hbm)
        have hnext64 : n + 1 < 2 ^ 64 := by omega
        have hstore : pageStore (pre ++ (buildChain ps n rem (fuel + 1)).map
            (fun e => if e.1 = n + (k2 + 1)
              then (e.1, e.2.set (OVERFLOW_HEADER_SIZE + p) b2) else e)) n
            = some (overflowPage ps (n + 1) (rem.take (ps - OVERFLOW_HEADER_SIZE))) := by
          rw [hmapbc, pageStore_append_skip _ _ _ hskip, pageStore_cons_self]
        have hfb := fromBytes_overflowPage ps (n + 1)
          (rem.take (ps - OVERFLOW_HEADER_SIZE)) hps hps2 hnext64 hcl2 hchunkb
        have hplen := overflowPage_length ps (n + 1)
          (rem.take (ps - OVERFLOW_HEADER_SIZE)) hps hcl2
        have hslice := overflowPage_chunk_slice ps (n + 1)
          (rem.take (ps - OVERFLOW_HEADER_SIZE))
        have hrest3 : rem.drop (ps - OVERFLOW_HEADER_SIZE) ≠ [] := by
          intro h
          apply hrest
          rw [h]
          rfl
        have hbd : ∀ b ∈ rem.drop (ps - OVERFLOW_HEADER_SIZE), b < 256 :=
          fun b hbm => hb b (List.mem_of_mem_drop hbm)
        have hfuel2 : (rem.drop (ps - OVERFLOW_HEADER_SIZE)).length ≤ fuel := by
          rw [List.length_drop]
          omega
        have hmul : (rf + 1) * (ps - OVERFLOW_HEADER_SIZE)
            = rf * (ps - OVERFLOW_HEADER_SIZE) + (ps - OVERFLOW_HEADER_SIZE) :=
          Nat.succ_mul rf _
        have hrf2 : (rem.drop (ps - OVERFLOW_HEADER_SIZE)).length
            ≤ rf * (ps - OVERFLOW_HEADER_SIZE) := by
          rw [List.length_drop]
          omega
        have hid2 : n + 1 + (rem.drop (ps - OVERFLOW_HEADER_SIZE)).length < 2 ^ 64 := by
          rw [List.length_drop]
          omega
        have hpre2 : ∀ e ∈ pre
            ++ [(n, overflowPage ps (n + 1) (rem.take (ps - OVERFLOW_HEADER_SIZE)))],
            e.1 < n + 1 := by
          intro e he
          rcases List.mem_append.mp he with h1 | h1
          · exact Nat.lt_succ_of_lt (hpre e h1)
          · rw [List.mem_singleton.mp h1]
            exact Nat.lt_succ_self n
        have hp2 : p < min ((rem.drop (ps - OVERFLOW_HEADER_SIZE)).length
            - k2 * (ps - OVERFLOW_HEADER_SIZE)) (ps - OVERFLOW_HEADER_SIZE) := by
          rw [List.length_drop]
          omega
        have hne2 : b2 ≠ (rem.drop (ps - OVERFLOW_HEADER_SIZE)).getD
            (k2 * (ps - OVERFLOW_HEADER_SIZE) + p) 0 := by
          rw [getD_drop, show (ps - OVERFLOW_HEADER_SIZE)
            + (k2 * (ps - OVERFLOW_HEADER_SIZE) + p)
            = (k2 + 1) * (ps - OVERFLOW_HEADER_SIZE) + p from by omega]
          exact hne
        have happ : pre ++ (buildChain ps n rem (fuel + 1)).map
            (fun e => if e.1 = n + (k2 + 1)
              then (e.1, e.2.set (OVERFLOW_HEADER_SIZE + p) b2) else e)
            = (pre ++ [(n, overflowPage ps (n + 1)
                (rem.take (ps - OVERFLOW_HEADER_SIZE)))])
              ++ (buildChain ps (n + 1) (rem.drop (ps - OVERFLOW_HEADER_SIZE)) fuel).map
                (fun e => if e.1 = n + (k2 + 1)
                  then (e.1, e.2.set (OVERFLOW_HEADER_SIZE + p) b2) else e) := by
          rw [hmapbc]
          simp
        have hnk : n + (k2 + 1) = n + 1 + k2 := by omega
        simp only [readOverflowLoop, if_neg hn0, hstore, hfb, hplen]
        rw [if_neg (by omega), hslice, if_neg (fun h => h rfl), happ]
        simp only [hnk]
        rw [ih (rem.drop (ps - OVERFLOW_HEADER_SIZE)) (n + 1)
          (acc ++ rem.take (ps - OVERFLOW_HEADER_SIZE)) rf
          (pre ++ [(n, overflowPage ps (n + 1) (rem.take (ps - OVERFLOW_HEADER_SIZE)))])
          k2 p b2 hrest3 hbd hfuel2 hrf2 (by omega) hid2 hpre2 hp2 hb2 hne2]

/-- C5: `allocate_overflow` splits a nonempty in-range value into chunks
of `page_size - 24` bytes on pages linked by next-page ids ending in 0;
`read_overflow` walks the chain under the 1,000,000-page cap, verifying
each chunk's CRC32 and the accumulated length against `total_len`, and
returns exactly the value; corrupting any single chunk byte of any
chain page makes the read fail. -/
theorem claim5_overflow_roundtrip_and_corruption
    (ps nid : Nat) (value : List Nat)
    (hps : 24 < ps) (hps2 : ps < 2 ^ 32)
    (hv : value ≠ []) (hb : ∀ b ∈ value, b < 256)
    (hlen32 : value.length < 2 ^ 32)
    (hid : nid + 1 + value.length < 2 ^ 64)
    (hcap : value.length ≤ 1000000 * (ps - OVERFLOW_HEADER_SIZE)) :
    readOverflow (pageStore (allocateOverflow ⟨nid + 1, [], ps⟩ value).2.2)
        (allocateOverflow ⟨nid + 1, [], ps⟩ value).2.1 = some value
    ∧ ∀ k p b2,
        p < min (value.length - k * (ps - OVERFLOW_HEADER_SIZE))
          (ps - OVERFLOW_HEADER_SIZE) →
        b2 < 256 → b2 ≠ value.getD (k * (ps - OVERFLOW_HEADER_SIZE) + p) 0 →
        readOverflow (pageStore (((allocateOverflow ⟨nid + 1, [], ps⟩ value).2.2).map
            (fun e => if e.1 = nid + 1 + k
              then (e.1, e.2.set (OVERFLOW_HEADER_SIZE + p) b2) else e)))
          (allocateOverflow ⟨nid + 1, [], ps⟩ value).2.1 = none := by
  have hvE : value.isEmpty = false := by
    cases value with
    | nil => exact absurd rfl hv
    | cons a l => rfl
  have halloc : (allocateOverflow ⟨nid + 1, [], ps⟩ value).2.2
      = buildChain ps (nid + 1) value value.length := by
    simp [allocateOverflow, hvE, OverflowManager.allocPage]
    exact allocateLoop_eq_buildChain ps value.length value (nid + 1)
  have href : (allocateOverflow ⟨nid + 1, [], ps⟩ value).2.1
      = ⟨nid + 1, value.length % 2 ^ 32⟩ := by
    simp [allocateOverflow, hvE, OverflowManager.allocPage]
  constructor
  · have hwalk := readChain ps hps hps2 value.length value (nid + 1) [] 1000000 []
      hv hb le_rfl hcap (by omega) hid (by simp)
    simp only [List.nil_append] at hwalk
    rw [halloc, href]
    simp only [readOverflow, hwalk]
    rw [if_neg (by omega : ¬(nid + 1 = 0)), Nat.mod_eq_of_lt hlen32,
      if_neg (fun h => h rfl)]
  · intro k p b2 hpk hb2k hnek
    have hwalkc := readChainCorrupt ps hps hps2 value.length value (nid + 1) []
      1000000 [] k p b2 hv hb le_rfl hcap (by omega) hid (by simp) hpk hb2k hnek
    simp only [List.nil_append] at hwalkc
    rw [halloc, href]
    simp only [readOverflow, hwalkc]
    rw [if_neg (by omega : ¬(nid + 1 = 0))]

/-- C5 witness: a 3-byte value on 26-byte pages (2-byte chunks, so a
2-page chain) written by a fresh manager round-trips. -/
theorem claim5_witness :
    (24 < 26 ∧ 26 < 2 ^ 32 ∧ ([10, 20, 30] : List Nat) ≠ []
      ∧ (∀ b ∈ ([10, 20, 30] : List Nat), b < 256)
      ∧ ([10, 20, 30] : List Nat).length < 2 ^ 32
      ∧ 0 + 1 + ([10, 20, 30] : List Nat).length < 2 ^ 64
      ∧ ([10, 20, 30] : List Nat).length ≤ 1000000 * (26 - OVERFLOW_HEADER_SIZE))
    ∧ readOverflow (pageStore (allocateOverflow ⟨0 + 1, [], 26⟩ [10, 20, 30]).2.2)
        (allocateOverflow ⟨0 + 1, [], 26⟩ [10, 20, 30]).2.1 = some [10, 20, 30] :=
  ⟨⟨by norm_num, by norm_num, by simp, by decide, by norm_num, by norm_num,
    by norm_num [OVERFLOW_HEADER_SIZE]⟩,
    (claim5_overflow_roundtrip_and_corruption 26 0 [10, 20, 30] (by norm_num)
      (by norm_num) (by simp) (by decide) (by norm_num) (by norm_num)
      (by norm_num [OVERFLOW_HEADER_SIZE])).1⟩

/-- The protocol invariant holds initially. -/
theorem GCInit_inv : GCInv GCInit := by
  unfold GCInv
  refine ⟨le_rfl, ?_, ?_, List.nodup_nil, ?_, ?_, ?_, ?_⟩
  · intro t ht
    exact absurd rfl ht
  · intro t ht
    exact absurd ht (List.not_mem_nil t)
  · intro b hb
    rfl
  · intro l bid batch hl2
    exact Option.noConfusion hl2
  · intro l bid rem res hl2
    exact Option.noConfusion hl2
  · intro t r hor
    rcases hor with h' | h'
    · exact GCPhase.noConfusion h'
    · exact GCPhase.noConfusion h'

/-- Every protocol step preserves the invariant. -/
theorem GCStep_inv (s s2 : GCState) (hstep : GCStep s s2) (hinv : GCInv s) :
    GCInv s2 := by
  unfold GCInv at hinv
  obtain ⟨i1, i2, i3, i4, i5, i6, i7, i8⟩ := hinv
  cases hstep with
  | append t0 h0 =>
    unfold GCInv
    refine ⟨?_, ?_, ?_, i4, i5, ?_, ?_, ?_⟩
    · dsimp only
      omega
    · intro t ht
      dsimp only at ht ⊢
      by_cases hteq : t = t0
      · rw [if_pos hteq]
        omega
      · rw [if_neg hteq] at ht
        rw [if_neg hteq]
        have := i2 t ht
        omega
    · intro t ht
      dsimp only at ht ⊢
      have h3 := i3 t ht
      have hne : t ≠ t0 := by
        intro hc
        rw [hc, h0] at h3
        exact GCPhase.noConfusion h3
      rw [if_neg hne]
      exact h3
    · intro l bid batch hl2
      dsimp only at hl2 ⊢
      obtain ⟨c1, c2, c3, c4⟩ := i6 l bid batch hl2
      refine ⟨c1, c2, c3, ?_⟩
      intro u hu
      obtain ⟨f1, f2⟩ := c4 u hu
      have hne : u ≠ t0 := by
        intro hc
        rw [hc, h0] at f1
        exact GCPhase.noConfusion f1
      rw [if_neg hne]
      exact ⟨f1, f2⟩
    · intro l bid rem res hl2
      dsimp only at hl2 ⊢
      obtain ⟨c1, c2, c3, c4⟩ := i7 l bid rem res hl2
      refine ⟨c1, c2, ?_, ?_⟩
      · intro u hu
        obtain ⟨f1, f2⟩ := c3 u hu
        have hne : u ≠ t0 := by
          intro hc
          rw [hc, h0] at f1
          exact GCPhase.noConfusion f1
        rw [if_neg hne]
        exact ⟨f1, f2⟩
      · intro hok u hu
        obtain ⟨f1, _⟩ := c3 u hu
        have hne : u ≠ t0 := by
          intro hc
          rw [hc, h0] at f1
          exact GCPhase.noConfusion f1
        rw [if_neg hne]
        exact c4 hok u hu
    · intro t r hor
      dsimp only at hor ⊢
      by_cases hteq : t = t0
      · rw [if_pos hteq] at hor
        rcases hor with h' | h'
        · exact GCPhase.noConfusion h'
        · exact GCPhase.noConfusion h'
      · rw [if_neg hteq] at hor
        obtain ⟨⟨b, e1, e2⟩, e3⟩ := i8 t r hor
        refine ⟨⟨b, e1, e2⟩, ?_⟩
        intro hok
        rw [if_neg hteq]
        exact e3 hok
  | enqueueLead t0 h0 hl0 =>
    unfold GCInv
    refine ⟨i1, ?_, ?_, ?_, i5, ?_, ?_, ?_⟩
    · intro t ht
      dsimp only at ht ⊢
      by_cases hteq : t = t0
      · subst hteq
        refine i2 t ?_
        rw [h0]
        simp
      · rw [if_neg hteq] at ht
        exact i2 t ht
    · intro t ht
      dsimp only at ht ⊢
      rcases List.mem_append.mp ht with h1 | h1
      · have h3 := i3 t h1
        have hne : t ≠ t0 := by
          intro hc
          rw [hc, h0] at h3
          exact GCPhase.noConfusion h3
        rw [if_neg hne]
        exact h3
      · rw [List.mem_singleton.mp h1, if_pos rfl]
    · dsimp only
      rw [List.nodup_append]
      refine ⟨i4, List.nodup_singleton _, ?_⟩
      intro a ha hb
      rw [List.mem_singleton] at hb
      subst hb
      have h3 := i3 a ha
      rw [h0] at h3
      exact GCPhase.noConfusion h3
    · intro l bid batch hl2
      dsimp only at hl2
      simp at hl2
    · intro l bid rem res hl2
      dsimp only at hl2
      simp at hl2
    · intro t r hor
      dsimp only at hor ⊢
      by_cases hteq : t = t0
      · rw [if_pos hteq] at hor
        rcases hor with h' | h'
        · exact GCPhase.noConfusion h'
        · exact GCPhase.noConfusion h'
      · rw [if_neg hteq] at hor
        exact i8 t r hor
  | enqueueFollow t0 l0 lp h0 hl0 =>
    unfold GCInv
    refine ⟨i1, ?_, ?_, ?_, i5, ?_, ?_, ?_⟩
    · intro t ht
      dsimp only at ht ⊢
      by_cases hteq : t = t0
      · subst hteq
        refine i2 t ?_
        rw [h0]
        simp
      · rw [if_neg hteq] at ht
        exact i2 t ht
    · intro t ht
      dsimp only at ht ⊢
      rcases List.mem_append.mp ht with h1 | h1
      · have h3 := i3 t h1
        have hne : t ≠ t0 := by
          intro hc
          rw [hc, h0] at h3
          exact GCPhase.noConfusion h3
        rw [if_neg hne]
        exact h3
      · rw [List.mem_singleton.mp h1, if_pos rfl]
    · dsimp only
      rw [List.nodup_append]
      refine ⟨i4, List.nodup_singleton _, ?_⟩
      intro a ha hb
      rw [List.mem_singleton] at hb
      subst hb
      have h3 := i3 a ha
      rw [h0] at h3
      exact GCPhase.noConfusion h3
    · intro l bid batch hl2
      dsimp only at hl2 ⊢
      obtain ⟨c1, c2, c3, c4⟩ := i6 l bid batch hl2
      refine ⟨c1, c2, c3, ?_⟩
      intro u hu
      obtain ⟨f1, f2⟩ := c4 u hu
      have hne : u ≠ t0 := by
        intro hc
        rw [hc, h0] at f1
        exact GCPhase.noConfusion f1
      rw [if_neg hne]
      exact ⟨f1, f2⟩
    · intro l bid rem res hl2
      dsimp only at hl2 ⊢
      obtain ⟨c1, c2, c3, c4⟩ := i7 l bid rem res hl2
      refine ⟨c1, c2, ?_, c4⟩
      intro u hu
      obtain ⟨f1, f2⟩ := c3 u hu
      have hne : u ≠ t0 := by
        intro hc
        rw [hc, h0] at f1
        exact GCPhase.noConfusion f1
      rw [if_neg hne]
      exact ⟨f1, f2⟩
    · intro t r hor
      dsimp only at hor ⊢
      by_cases hteq : t = t0
      · rw [if_pos hteq] at hor
        rcases hor with h' | h'
        · exact GCPhase.noConfusion h'
        · exact GCPhase.noConfusion h'
      · rw [if_neg hteq] at hor
        exact i8 t r hor
  | take l0 hl0 =>
    unfold GCInv
    refine ⟨i1, ?_, ?_, ?_, ?_, ?_, ?_, ?_⟩
    · intro t ht
      dsimp only at ht ⊢
      by_cases htp : t ∈ s.pending
      · refine i2 t ?_
        rw [i3 t htp]
        simp
      · rw [if_neg htp] at ht
        exact i2 t ht
    · intro t ht
      dsimp only at ht
      exact absurd ht (List.not_mem_nil t)
    · dsimp only
      exact List.nodup_nil
    · intro b hb
      dsimp only at hb ⊢
      exact i5 b (by omega)
    · intro l bid batch hl2
      dsimp only at hl2 ⊢
      rw [Option.some_inj, Prod.mk.injEq] at hl2
      obtain ⟨he1, he2⟩ := hl2
      rw [LeaderPhase.syncing.injEq] at he2
      obtain ⟨hbid, hbatch⟩ := he2
      subst hbid
      subst hbatch
      refine ⟨by omega, i5 s.nextBatch le_rfl, i4, ?_⟩
      intro u hu
      rw [if_pos hu, if_pos hu]
      exact ⟨rfl, rfl⟩
    · intro l bid rem res hl2
      dsimp only at hl2
      simp at hl2
    · intro t r hor
      dsimp only at hor ⊢
      by_cases htp : t ∈ s.pending
      · rw [if_pos htp] at hor
        rcases hor with h' | h'
        · exact GCPhase.noConfusion h'
        · exact GCPhase.noConfusion h'
      · rw [if_neg htp] at hor
        obtain ⟨⟨b, e1, e2⟩, e3⟩ := i8 t r hor
        refine ⟨⟨b, ?_, e2⟩, e3⟩
        rw [if_neg htp]
        exact e1
  | syncOk l0 bid0 batch0 hl0 =>
    obtain ⟨c1, c2, c3, c4⟩ := i6 l0 bid0 batch0 hl0
    unfold GCInv
    refine ⟨le_rfl, i2, i3, i4, ?_, ?_, ?_, ?_⟩
    · intro b hb
      dsimp only at hb ⊢
      rw [if_neg (by omega : ¬ b = bid0)]
      exact i5 b hb
    · intro l bid batch hl2
      dsimp only at hl2
      simp at hl2
    · intro l bid rem res hl2
      dsimp only at hl2 ⊢
      rw [Option.some_inj, Prod.mk.injEq] at hl2
      obtain ⟨he1, he2⟩ := hl2
      rw [LeaderPhase.notifying.injEq] at he2
      obtain ⟨hbid, hrem, hres⟩ := he2
      subst hbid
      subst hrem
      subst hres
      refine ⟨?_, c3, c4, ?_⟩
      · rw [if_pos rfl]
      · intro _ u hu
        obtain ⟨f1, _⟩ := c4 u hu
        refine i2 u ?_
        rw [f1]
        simp
    · intro t r hor
      dsimp only at hor ⊢
      obtain ⟨⟨b, e1, e2⟩, e3⟩ := i8 t r hor
      have hbne : b ≠ bid0 := by
        intro hc
        rw [hc, c2] at e2
        exact Option.noConfusion e2
      refine ⟨⟨b, e1, ?_⟩, ?_⟩
      · rw [if_neg hbne]
        exact e2
      · intro hok
        have := e3 hok
        omega
  | syncErr l0 bid0 batch0 cause hl0 =>
    obtain ⟨c1, c2, c3, c4⟩ := i6 l0 bid0 batch0 hl0
    unfold GCInv
    refine ⟨i1, i2, i3, i4, ?_, ?_, ?_, ?_⟩
    · intro b hb
      dsimp only at hb ⊢
      rw [if_neg (by omega : ¬ b = bid0)]
      exact i5 b hb
    · intro l bid batch hl2
      dsimp only at hl2
      simp at hl2
    · intro l bid rem res hl2
      dsimp only at hl2 ⊢
      rw [Option.some_inj, Prod.mk.injEq] at hl2
      obtain ⟨he1, he2⟩ := hl2
      rw [LeaderPhase.notifying.injEq] at he2
      obtain ⟨hbid, hrem, hres⟩ := he2
      subst hbid
      subst hrem
      subst hres
      refine ⟨?_, c3, c4, ?_⟩
      · rw [if_pos rfl]
      · intro hok
        exact absurd hok (by simp)
    · intro t r hor
      dsimp only at hor ⊢
      obtain ⟨⟨b, e1, e2⟩, e3⟩ := i8 t r hor
      have hbne : b ≠ bid0 := by
        intro hc
        rw [hc, c2] at e2
        exact Option.noConfusion e2
      refine ⟨⟨b, e1, ?_⟩, e3⟩
      rw [if_neg hbne]
      exact e2
  | notify l0 bid0 t0 rest res0 hl0 =>
    obtain ⟨c1, c2, c3, c4⟩ := i7 l0 bid0 (t0 :: rest) res0 hl0
    obtain ⟨d1, d2⟩ := c3 t0 (List.mem_cons_self t0 rest)
    have ht0rest : t0 ∉ rest := (List.nodup_cons.mp c2).1
    unfold GCInv
    refine ⟨i1, ?_, ?_, i4, i5, ?_, ?_, ?_⟩
    · intro t ht
      dsimp only at ht ⊢
      by_cases hteq : t = t0
      · subst hteq
        refine i2 t ?_
        rw [d1]
        simp
      · rw [if_neg hteq] at ht
        exact i2 t ht
    · intro t ht
      dsimp only at ht ⊢
      have h3 := i3 t ht
      have hne : t ≠ t0 := by
        intro hc
        rw [hc, d1] at h3
        exact GCPhase.noConfusion h3
      rw [if_neg hne]
      exact h3
    · intro l bid batch hl2
      dsimp only at hl2
      simp at hl2
    · intro l bid rem res hl2
      dsimp only at hl2 ⊢
      rw [Option.some_inj, Prod.mk.injEq] at hl2
      obtain ⟨he1, he2⟩ := hl2
      rw [LeaderPhase.notifying.injEq] at he2
      obtain ⟨hbid, hrem, hres⟩ := he2
      subst hbid
      subst hrem
      subst hres
      refine ⟨c1, (List.nodup_cons.mp c2).2, ?_, ?_⟩
      · intro u hu
        obtain ⟨f1, f2⟩ := c3 u (List.mem_cons_of_mem t0 hu)
        have hne : u ≠ t0 := fun hc => ht0rest (hc ▸ hu)
        rw [if_neg hne]
        exact ⟨f1, f2⟩
      · intro hok u hu
        exact c4 hok u (List.mem_cons_of_mem t0 hu)
    · intro t r hor
      dsimp only at hor ⊢
      by_cases hteq : t = t0
      · subst hteq
        rw [if_pos rfl] at hor
        rcases hor with h' | h'
        · injection h' with h''
          subst h''
          exact ⟨⟨bid0, d2, c1⟩,
            fun hok => c4 hok t (List.mem_cons_self t rest)⟩
        · exact GCPhase.noConfusion h'
      · rw [if_neg hteq] at hor
        exact i8 t r hor
  | finish l0 bid0 res0 hl0 =>
    unfold GCInv
    refine ⟨i1, i2, i3, i4, i5, ?_, ?_, i8⟩
    · intro l bid batch hl2
      dsimp only at hl2
      exact Option.noConfusion hl2
    · intro l bid rem res hl2
      dsimp only at hl2
      exact Option.noConfusion hl2
  | ret t0 r0 h0 =>
    unfold GCInv
    refine ⟨i1, ?_, ?_, i4, i5, ?_, ?_, ?_⟩
    · intro t ht
      dsimp only at ht ⊢
      by_cases hteq : t = t0
      · subst hteq
        refine i2 t ?_
        rw [h0]
        simp
      · rw [if_neg hteq] at ht
        exact i2 t ht
    · intro t ht
      dsimp only at ht ⊢
      have h3 := i3 t ht
      have hne : t ≠ t0 := by
        intro hc
        rw [hc, h0] at h3
        exact GCPhase.noConfusion h3
      rw [if_neg hne]
      exact h3
    · intro l bid batch hl2
      dsimp only at hl2 ⊢
      obtain ⟨c1, c2, c3, c4⟩ := i6 l bid batch hl2
      refine ⟨c1, c2, c3, ?_⟩
      intro u hu
      obtain ⟨f1, f2⟩ := c4 u hu
      have hne : u ≠ t0 := by
        intro hc
        rw [hc, h0] at f1
        exact GCPhase.noConfusion f1
      rw [if_neg hne]
      exact ⟨f1, f2⟩
    · intro l bid rem res hl2
      dsimp only at hl2 ⊢
      obtain ⟨c1, c2, c3, c4⟩ := i7 l bid rem res hl2
      refine ⟨c1, c2, ?_, c4⟩
      intro u hu
      obtain ⟨f1, f2⟩ := c3 u hu
      have hne : u ≠ t0 := by
        intro hc
        rw [hc, h0] at f1
        exact GCPhase.noConfusion f1
      rw [if_neg hne]
      exact ⟨f1, f2⟩
    · intro t r hor
      dsimp only at hor ⊢
      by_cases hteq : t = t0
      · subst hteq
        rw [if_pos rfl] at hor
        rcases hor with h' | h'
        · exact GCPhase.noConfusion h'
        · injection h' with h''
          subst h''
          exact i8 t r0 (Or.inl h0)
      · rw [if_neg hteq] at hor
        exact i8 t r hor

/-- The invariant holds in every reachable coordinator state. -/
theorem GCReachable_inv (s : GCState) (h : GCReachable s) : GCInv s := by
  have h2 : Relation.ReflTransGen GCStep GCInit s := h
  clear h
  induction h2 with
  | refl => exact GCInit_inv
  | tail hab hbc ih => exact GCStep_inv _ _ hbc ih

/-- C9: in every reachable coordinator state, a commit that returned
`Ok` has its record below the durability watermark set by a successful
sync; a commit that returned `GroupCommitFailed` carries exactly its
own batch's sync-failure result; and two commits of the same batch
always return the same result, so no batch member succeeds alone. -/
theorem claim9_group_commit_guarantees (s : GCState) (h : GCReachable s) :
    (∀ t, s.phase t = GCPhase.returned CommitResult.ok →
      s.pos t < s.durableLen)
    ∧ (∀ t cause,
        s.phase t = GCPhase.returned (CommitResult.groupCommitFailed cause) →
        ∃ b, s.batchOf t = some b
          ∧ s.batchRes b = some (CommitResult.groupCommitFailed cause))
    ∧ (∀ t u b rt ru, s.batchOf t = some b → s.batchOf u = some b →
        s.phase t = GCPhase.returned rt → s.phase u = GCPhase.returned ru →
        rt = ru) := by
  have hinv := GCReachable_inv s h
  unfold GCInv at hinv
  obtain ⟨i1, i2, i3, i4, i5, i6, i7, i8⟩ := hinv
  refine ⟨?_, ?_, ?_⟩
  · intro t ht
    exact (i8 t CommitResult.ok (Or.inr ht)).2 rfl
  · intro t cause ht
    exact (i8 t (CommitResult.groupCommitFailed cause) (Or.inr ht)).1
  · intro t u b rt ru hbt hbu hpt hpu
    obtain ⟨⟨bt, hbt2, hrt⟩, _⟩ := i8 t rt (Or.inr hpt)
    obtain ⟨⟨bu, hbu2, hru⟩, _⟩ := i8 u ru (Or.inr hpu)
    rw [hbt] at hbt2
    rw [hbu] at hbu2
    obtain rfl : b = bt := Option.some_inj.mp hbt2
    obtain rfl : b = bu := Option.some_inj.mp hbu2
    rw [hrt] at hru
    exact Option.some_inj.mp hru

/-- C9 witness: the concrete run `append, enqueue as leader, take,
sync Ok, notify, return` reaches a state where thread 0 has returned
`Ok` and its record is below the durability watermark. -/
theorem claim9_witness :
    gcS6.phase 0 = GCPhase.returned CommitResult.ok
    ∧ gcS6.pos 0 < gcS6.durableLen := by
  have h1 : GCStep GCInit gcS1 := GCStep.append GCInit 0 rfl
  have h2 : GCStep gcS1 gcS2 := GCStep.enqueueLead gcS1 0 rfl rfl
  have h3 : GCStep gcS2 gcS3 := GCStep.take gcS2 0 rfl
  have h4 : GCStep gcS3 gcS4 := GCStep.syncOk gcS3 0 0 [0] rfl
  have h5 : GCStep gcS4 gcS5 := GCStep.notify gcS4 0 0 0 [] CommitResult.ok rfl
  have h6 : GCStep gcS5 gcS6 := GCStep.ret gcS5 0 CommitResult.ok rfl
  have hreach : GCReachable gcS6 :=
    Relation.ReflTransGen.tail (Relation.ReflTransGen.tail
      (Relation.ReflTransGen.tail (Relation.ReflTransGen.tail
        (Relation.ReflTransGen.tail (Relation.ReflTransGen.tail
          Relation.ReflTransGen.refl h1) h2) h3) h4) h5) h6
  exact ⟨rfl, (claim9_group_commit_guarantees gcS6 hreach).1 0 rfl⟩

end Thunder
